import Mathlib

/-!
# Verification of the `hlscp` playlist mirroring tool

Shallow embedding of the core of `hlscp` (an HLS playlist copier written in
Rust) and proofs about its behaviour.  The embedding covers:

* the text primitives the code relies on (`str::lines`, `str::trim`,
  the regex `URI="([^"]+)"` used for attribute extraction and rewriting),
* a model of the external `url` crate (WHATWG URL parsing restricted to
  ASCII input, no percent-encoding/IDNA/IPv6; `Url::path_segments` is
  translated from the crate's source: `path.strip_prefix('/')` followed by
  `split('/')`),
* `Playlist::parse`, `Playlist::is_master_playlist`,
  `Playlist::extract_all_playlists`, `Playlist::rewrite_content`
  (src/playlist.rs),
* the duplicated legacy versions of those functions from src/main.rs,
* `HlsCopier::process_playlist` and `HlsCopier::copy_hls`
  (src/hls_copier.rs) over explicit HTTP/filesystem oracles.
-/

namespace Hlscp

/-! ## Character classes -/

/-- ASCII fragment of Rust's `char::is_whitespace` (Unicode `White_Space`);
the inputs we reason about are ASCII, where the two notions agree. -/
def isWs (c : Char) : Bool :=
  c = ' ' || c = '\t' || c = '\n' || c = '\r' || c = '\x0b' || c = '\x0c'

/-! ## `str::trim` -/

/-- Drop trailing characters satisfying `isWs`. -/
def dropWsEnd (l : List Char) : List Char :=
  (l.reverse.dropWhile isWs).reverse

/-- Rust `str::trim`: drop whitespace from both ends. -/
def trimL (l : List Char) : List Char :=
  dropWsEnd (l.dropWhile isWs)

/-! ## `str::lines`

Rust's `lines` iterator is `split_inclusive('\n')` followed by stripping a
trailing `'\n'` and then at most one trailing `'\r'` from each chunk. -/

/-- `split_inclusive('\n')`: chunks keep their terminating newline; an input
without a final newline yields a final unterminated chunk; `""` yields no
chunks. -/
def splitInclNl (cs : List Char) : List (List Char) :=
  cs.foldr
    (fun c acc =>
      if c = '\n' then [c] :: acc
      else
        match acc with
        | [] => [[c]]
        | a :: as => (c :: a) :: as)
    []

/-- Rust `str::strip_suffix` for a single trailing `'\r'`:
strip it when present, otherwise leave the chunk unchanged. -/
def stripCrEnd (l : List Char) : List Char :=
  if l.getLast? = some '\r' then l.dropLast else l

/-- Strip one trailing `'\n'` (`strip_suffix('\n')`), and if one was
stripped also one trailing `'\r'` (Rust's `LinesMap`). -/
def linesMap (l : List Char) : List Char :=
  if l.getLast? = some '\n' then stripCrEnd l.dropLast else l

/-- Rust `str::lines`. -/
def rustLines (cs : List Char) : List (List Char) :=
  (splitInclNl cs).map linesMap

/-- `Vec::join("\n")` on the collected lines. -/
def joinNl : List (List Char) → List Char
  | [] => []
  | [x] => x
  | x :: y :: rest => x ++ '\n' :: joinNl (y :: rest)

/-! ## Basic facts about the text primitives -/

theorem isWs_ne_pat {c : Char} (h : isWs c = true) :
    c ≠ 'U' ∧ c ≠ 'R' ∧ c ≠ 'I' ∧ c ≠ '=' ∧ c ≠ '"' ∧ c ≠ '#' ∧ c ≠ '/' := by
  simp only [isWs, Bool.or_eq_true, decide_eq_true_eq] at h
  rcases h with ((((h | h) | h) | h) | h) | h <;> subst h <;>
    exact ⟨by decide, by decide, by decide, by decide, by decide, by decide, by decide⟩

theorem head?_dropWhile_ws {l : List Char} {c : Char}
    (h : (l.dropWhile isWs).head? = some c) : isWs c = false := by
  induction l with
  | nil => simp [List.dropWhile] at h
  | cons a t ih =>
    rw [List.dropWhile_cons] at h
    by_cases ha : isWs a = true
    · rw [if_pos ha] at h; exact ih h
    · rw [if_neg ha] at h
      simp only [List.head?_cons, Option.some.injEq] at h
      subst h
      exact Bool.eq_false_iff.mpr ha

theorem dropWhile_ws_all {l : List Char} (h : ∀ c ∈ l, isWs c = true) :
    l.dropWhile isWs = [] := by
  induction l with
  | nil => rfl
  | cons a t ih =>
    rw [List.dropWhile_cons, if_pos (h a (by simp))]
    exact ih fun c hc => h c (by simp [hc])

theorem dropWhile_ws_append_all {l t : List Char} (h : ∀ c ∈ l, isWs c = true) :
    (l ++ t).dropWhile isWs = t.dropWhile isWs := by
  induction l with
  | nil => rfl
  | cons a xs ih =>
    rw [List.cons_append, List.dropWhile_cons, if_pos (h a (by simp))]
    exact ih fun c hc => h c (by simp [hc])

theorem dropWhile_cons_not_ws {c : Char} {l : List Char} (h : isWs c = false) :
    (c :: l).dropWhile isWs = c :: l := by
  rw [List.dropWhile_cons, if_neg (by simp [h])]

/-- Trimming a string made of a whitespace prefix, a core with non-whitespace
ends, and a whitespace suffix yields exactly the core. -/
theorem trimL_eq_core {pre post x : List Char}
    (hpre : ∀ c ∈ pre, isWs c = true) (hpost : ∀ c ∈ post, isWs c = true)
    (hh : ∀ c, x.head? = some c → isWs c = false)
    (hl : ∀ c, x.getLast? = some c → isWs c = false) :
    trimL (pre ++ x ++ post) = x := by
  unfold trimL dropWsEnd
  rw [List.append_assoc, dropWhile_ws_append_all hpre]
  cases x with
  | nil =>
    simp only [List.nil_append]
    rw [dropWhile_ws_all hpost]
    simp [dropWhile_ws_all, List.dropWhile_nil]
  | cons a t =>
    have ha : isWs a = false := hh a rfl
    rw [List.cons_append, dropWhile_cons_not_ws ha, ← List.cons_append,
      List.reverse_append, dropWhile_ws_append_all (by intro c hc; exact hpost c (by simpa using hc))]
    -- now: dropWhile isWs (reverse (a :: t)), whose head is the last of (a :: t)
    have hlast : isWs ((a :: t).getLast (by simp)) = false := by
      apply hl
      rw [List.getLast?_eq_getLast _ (by simp)]
    rcases hrev : (a :: t).reverse with _ | ⟨b, bs⟩
    · exact absurd (congrArg List.length hrev) (by simp)
    · have hb : b = (a :: t).getLast (by simp) := by
        have := congrArg List.head? hrev
        rw [List.head?_reverse] at this
        simp only [List.head?_cons] at this
        have h2 := List.getLast?_eq_getLast (a :: t) (by simp)
        rw [h2] at this
        exact ((Option.some.injEq _ _).mp this).symm
      rw [dropWhile_cons_not_ws (hb ▸ hlast), ← hrev, List.reverse_reverse]

theorem trimL_head_not_ws {l : List Char} {c : Char}
    (h : (trimL l).head? = some c) : isWs c = false := by
  unfold trimL dropWsEnd at h
  -- head of (reverse X) = getLast of X; instead reason via prefix:
  -- `reverse (dropWhile isWs (reverse y))` is a prefix of `y`, and `y = dropWhile isWs l`
  set y := l.dropWhile isWs with hy
  have hpre : (y.reverse.dropWhile isWs).reverse <+: y := by
    have hs : y.reverse.dropWhile isWs <:+ y.reverse := List.dropWhile_suffix isWs
    have := List.reverse_prefix.mpr (by simpa using hs)
    simpa using this
  rcases hpre with ⟨t, ht⟩
  rcases he : (y.reverse.dropWhile isWs).reverse with _ | ⟨a, as⟩
  · rw [he] at h; simp at h
  · rw [he] at h ht
    simp only [List.head?_cons, Option.some.injEq] at h
    have hha : y.head? = some a := by
      rw [← ht]; rfl
    rw [← h]
    exact head?_dropWhile_ws (hy ▸ hha)

theorem getLast?_trimL_not_ws {l : List Char} {c : Char}
    (h : (trimL l).getLast? = some c) : isWs c = false := by
  unfold trimL dropWsEnd at h
  rw [List.getLast?_reverse] at h
  exact head?_dropWhile_ws h

theorem trimL_idem (l : List Char) : trimL (trimL l) = trimL l := by
  have := @trimL_eq_core [] [] (trimL l)
    (by intro c hc; simp at hc) (by intro c hc; simp at hc)
    (fun c hc => trimL_head_not_ws hc) (fun c hc => getLast?_trimL_not_ws hc)
  simpa using this

/-- The decomposition of a list around its trimmed core. -/
theorem trimL_decomp (l : List Char) :
    ∃ pre post, (∀ c ∈ pre, isWs c = true) ∧ (∀ c ∈ post, isWs c = true) ∧
      l = pre ++ trimL l ++ post := by
  refine ⟨l.takeWhile isWs, ((l.dropWhile isWs).reverse.takeWhile isWs).reverse, ?_, ?_, ?_⟩
  · intro c hc; exact List.mem_takeWhile_imp hc
  · intro c hc
    rw [List.mem_reverse] at hc
    exact List.mem_takeWhile_imp hc
  · unfold trimL dropWsEnd
    conv_lhs => rw [← List.takeWhile_append_dropWhile (p := isWs) (l := l)]
    rw [List.append_assoc]
    congr 1
    conv_lhs => rw [← List.reverse_reverse (l.dropWhile isWs),
      ← List.takeWhile_append_dropWhile (p := isWs) (l := (l.dropWhile isWs).reverse)]
    rw [List.reverse_append]

theorem trimL_no_nl {l : List Char} (hl : '\n' ∉ l) : '\n' ∉ trimL l := by
  intro hmem
  apply hl
  obtain ⟨pre, post, _, _, hdec⟩ := trimL_decomp l
  rw [hdec]
  simp [hmem]

theorem trimL_append_ws {y post : List Char} (h : ∀ c ∈ post, isWs c = true) :
    trimL (y ++ post) = trimL y := by
  unfold trimL
  rcases hdw : y.dropWhile isWs with _ | ⟨a, t⟩
  · rw [List.dropWhile_append, hdw]
    simp only [List.isEmpty_nil, if_true]
    rw [dropWhile_ws_all h]
  · rw [List.dropWhile_append, hdw]
    simp only [List.isEmpty_cons, if_false]
    show dropWsEnd ((a :: t) ++ post) = dropWsEnd (a :: t)
    unfold dropWsEnd
    rw [List.reverse_append, dropWhile_ws_append_all (by intro c hc; exact h c (by simpa using hc))]

theorem trimL_prepend_ws {pre y : List Char} (h : ∀ c ∈ pre, isWs c = true) :
    trimL (pre ++ y) = trimL y := by
  unfold trimL
  rw [dropWhile_ws_append_all h]

theorem linesMap_no_nl {l : List Char} (h : '\n' ∉ l) : linesMap l = l := by
  unfold linesMap
  rw [if_neg]
  intro hcon
  obtain ⟨hne, heq⟩ :=
    List.mem_getLast?_eq_getLast (show '\n' ∈ l.getLast? by rw [hcon]; rfl)
  exact h (heq ▸ List.getLast_mem hne)

theorem linesMap_append_nl (xs : List Char) :
    linesMap (xs ++ ['\n']) = stripCrEnd xs := by
  unfold linesMap
  rw [List.getLast?_concat, if_pos rfl, List.dropLast_concat]

theorem stripCrEnd_no_cr {l : List Char} (h : l.getLast? ≠ some '\r') :
    stripCrEnd l = l := by
  unfold stripCrEnd
  rw [if_neg h]

theorem stripCrEnd_trimL (l : List Char) : stripCrEnd (trimL l) = trimL l := by
  apply stripCrEnd_no_cr
  intro h
  have := getLast?_trimL_not_ws h
  simp [isWs] at this

theorem trimL_stripCrEnd (l : List Char) : trimL (stripCrEnd l) = trimL l := by
  unfold stripCrEnd
  by_cases h : l.getLast? = some '\r'
  · rw [if_pos h]
    have hne : l ≠ [] := by
      intro hcon; rw [hcon] at h; simp at h
    have hl : l.dropLast ++ ['\r'] = l := by
      have hg : l.getLast hne = '\r' := by
        have h2 := List.getLast?_eq_getLast l hne
        rw [h2] at h
        exact (Option.some.injEq _ _).mp h
      rw [← hg]
      exact List.dropLast_append_getLast hne
    conv_rhs => rw [← hl]
    rw [trimL_append_ws]
    intro c hc
    simp only [List.mem_singleton] at hc
    subst hc; rfl
  · rw [if_neg h]


theorem splitInclNl_cons (c : Char) (cs : List Char) :
    splitInclNl (c :: cs) =
      if c = '\n' then ['\n'] :: splitInclNl cs
      else
        match splitInclNl cs with
        | [] => [[c]]
        | a :: as => (c :: a) :: as := by
  unfold splitInclNl
  rw [List.foldr_cons]
  by_cases h : c = '\n'
  · subst h; rfl
  · rw [if_neg h, if_neg h]

theorem splitInclNl_no_nl {cs : List Char} (hne : cs ≠ []) (h : '\n' ∉ cs) :
    splitInclNl cs = [cs] := by
  induction cs with
  | nil => exact absurd rfl hne
  | cons c t ih =>
    have hc : c ≠ '\n' := fun hcon => h (by simp [hcon])
    rw [splitInclNl_cons, if_neg hc]
    rcases ht : t with _ | ⟨d, ds⟩
    · rfl
    · rw [← ht, ih (by rw [ht]; simp) (fun hcon => h (by simp [hcon]))]

theorem splitInclNl_append_nl {xs : List Char} (ys : List Char) (h : '\n' ∉ xs) :
    splitInclNl (xs ++ '\n' :: ys) = (xs ++ ['\n']) :: splitInclNl ys := by
  induction xs with
  | nil =>
    rw [List.nil_append, splitInclNl_cons, if_pos rfl]
    rfl
  | cons c t ih =>
    have hc : c ≠ '\n' := fun hcon => h (by simp [hcon])
    rw [List.cons_append, splitInclNl_cons, if_neg hc,
      ih (fun hcon => h (by simp [hcon]))]
    rfl

theorem rustLines_nil : rustLines [] = [] := rfl

theorem rustLines_no_nl {cs : List Char} (hne : cs ≠ []) (h : '\n' ∉ cs) :
    rustLines cs = [cs] := by
  unfold rustLines
  rw [splitInclNl_no_nl hne h, List.map_singleton, linesMap_no_nl h]

theorem rustLines_append_nl {xs : List Char} (ys : List Char) (h : '\n' ∉ xs) :
    rustLines (xs ++ '\n' :: ys) = stripCrEnd xs :: rustLines ys := by
  unfold rustLines
  rw [splitInclNl_append_nl ys h, List.map_cons, linesMap_append_nl]

theorem joinNl_cons {x : List Char} {L : List (List Char)} (h : L ≠ []) :
    joinNl (x :: L) = x ++ '\n' :: joinNl L := by
  rcases L with _ | ⟨y, rest⟩
  · exact absurd rfl h
  · rfl

/-- Round trip: joining newline-free, `'\r'`-stable lines whose last line is
non-empty and re-splitting recovers the lines. -/
theorem rustLines_joinNl {L : List (List Char)}
    (h : ∀ x ∈ L, '\n' ∉ x ∧ stripCrEnd x = x)
    (hlast : L.getLast? ≠ some []) :
    rustLines (joinNl L) = L := by
  induction L with
  | nil => rfl
  | cons x rest ih =>
    rcases rest with _ | ⟨y, rest'⟩
    · have hx : x ≠ [] := by
        intro hcon
        exact hlast (by rw [hcon]; rfl)
      show rustLines x = [x]
      exact rustLines_no_nl hx (h x (by simp)).1
    · rw [joinNl_cons (by simp)]
      rw [rustLines_append_nl _ (h x (by simp)).1, (h x (by simp)).2]
      congr 1
      apply ih
      · intro z hz; exact h z (by simp [hz])
      · rwa [List.getLast?_cons_cons] at hlast

/-! ## The regex `URI="([^"]+)"`

The regex crate scans for the leftmost match.  At a given position the
pattern matches iff the text starts with the literal `URI="`, followed by at
least one non-quote character (`[^"]+` is greedy, so the capture runs to the
next `'"'`), followed by the closing `'"'`.  Note `[^"]` also matches
newlines. -/

def uriPat : List Char := ['U', 'R', 'I', '=', '"']

def notQuote (c : Char) : Bool := c != '"'

/-- Attempt to match `URI="([^"]+)"` at the head of `l`; on success return
the capture and the remainder of the text after the match. -/
def matchUriAt (l : List Char) : Option (List Char × List Char) :=
  if l.take 5 = uriPat then
    match (l.drop 5).dropWhile notQuote with
    | '"' :: after =>
      if ((l.drop 5).takeWhile notQuote).isEmpty then none
      else some ((l.drop 5).takeWhile notQuote, after)
    | _ => none
  else none

/-- `true` iff the head of `l` is an occurrence of `URI="` that is never
closed by a later `'"'` (such an occurrence could be closed by appended
text, so it blocks compositional reasoning about scanning). -/
def isUriOpenAt (l : List Char) : Bool :=
  decide (l.take 5 = uriPat) && !decide ('"' ∈ l.drop 5)

/-- Fuelled left-to-right scanner applying `f` to each capture of the regex
and splicing the results in place of the matches (`Regex::replace_all`).
The fuel only serves to make the recursion structural; `uriReplaceAll`
instantiates it with the input length, which is always sufficient. -/
def scanUriF (f : List Char → List Char) : Nat → List Char → List Char
  | 0, l => l
  | _ + 1, [] => []
  | fuel + 1, c :: t =>
    match matchUriAt (c :: t) with
    | some (v, rem) => f v ++ scanUriF f fuel rem
    | none => c :: scanUriF f fuel t

/-- `Regex::replace_all` with replacement function `f` (receives the capture
group; the full match is `URI="` ++ capture ++ `"`). -/
def uriReplaceAll (f : List Char → List Char) (l : List Char) : List Char :=
  scanUriF f l.length l

/-- Fuelled collection of all captures, leftmost first. -/
def uriCapsF : Nat → List Char → List (List Char)
  | 0, _ => []
  | _ + 1, [] => []
  | fuel + 1, c :: t =>
    match matchUriAt (c :: t) with
    | some (v, rem) => v :: uriCapsF fuel rem
    | none => uriCapsF fuel t

/-- All captures of the regex over `l`, leftmost first. -/
def uriCaps (l : List Char) : List (List Char) :=
  uriCapsF l.length l

/-- Fuelled check that no position of `l` carries an unclosed `URI="`. -/
def noOpenF : Nat → List Char → Bool
  | 0, _ => true
  | _ + 1, [] => true
  | fuel + 1, c :: t =>
    match matchUriAt (c :: t) with
    | some (_, rem) => noOpenF fuel rem
    | none => if isUriOpenAt (c :: t) then false else noOpenF fuel t

/-- No position of `l` carries an occurrence of `URI="` without a closing
quote later in `l`. -/
def noOpen (l : List Char) : Bool :=
  noOpenF l.length l

/-! ### Structure of a match -/

theorem matchUriAt_some {l v rem : List Char}
    (h : matchUriAt l = some (v, rem)) :
    l = uriPat ++ v ++ '"' :: rem ∧ v ≠ [] ∧ '"' ∉ v := by
  unfold matchUriAt at h
  by_cases ht : l.take 5 = uriPat
  · rw [if_pos ht] at h
    rcases hd : (l.drop 5).dropWhile notQuote with _ | ⟨q, after⟩
    · rw [hd] at h; simp at h
    · rw [hd] at h
      by_cases hq : q = '"'
      · subst hq
        simp only at h
        by_cases hv : ((l.drop 5).takeWhile notQuote).isEmpty
        · rw [if_pos hv] at h; simp at h
        · rw [if_neg hv] at h
          simp only [Option.some.injEq, Prod.mk.injEq] at h
          obtain ⟨hv2, hrem⟩ := h
          refine ⟨?_, ?_, ?_⟩
          · conv_lhs => rw [← List.take_append_drop 5 l]
            rw [ht, ← hrem, ← hv2]
            conv_lhs =>
              rw [← List.takeWhile_append_dropWhile (p := notQuote) (l := l.drop 5), hd]
            rw [List.append_assoc]
          · intro hcon
            rw [← hv2] at hcon
            rw [hcon] at hv
            simp at hv
          · intro hcon
            rw [← hv2] at hcon
            have := List.mem_takeWhile_imp hcon
            simp [notQuote] at this
      · exfalso
        -- head of dropWhile notQuote is not notQuote, hence is '"'
        have := List.head?_dropWhile_not notQuote (l.drop 5)
        rw [hd] at this
        simp only [List.head?_cons] at this
        simp only [notQuote, bne_eq_false_iff_eq] at this
        exact hq this
  · rw [if_neg ht] at h; simp at h

theorem matchUriAt_some_length {l v rem : List Char}
    (h : matchUriAt l = some (v, rem)) : rem.length + 6 ≤ l.length := by
  obtain ⟨hl, hv, _⟩ := matchUriAt_some h
  rw [hl]
  simp only [List.length_append, List.length_cons]
  have : 1 ≤ v.length := by
    cases v with
    | nil => exact absurd rfl hv
    | cons a t => simp
  simp only [uriPat, List.length_cons, List.length_nil]
  omega

/-! ### Fuel irrelevance and unfolding equations -/

theorem scanUriF_fuel (f : List Char → List Char) :
    ∀ (n m : Nat) (l : List Char), l.length ≤ n → l.length ≤ m →
      scanUriF f n l = scanUriF f m l := by
  intro n
  induction n with
  | zero =>
    intro m l hn _
    have h0 : l = [] := List.length_eq_zero.mp (Nat.le_zero.mp hn)
    subst h0
    cases m <;> rfl
  | succ n ih =>
    intro m l hn hm
    cases l with
    | nil => cases m <;> rfl
    | cons c t =>
      cases m with
      | zero => simp at hm
      | succ m' =>
        rcases hmt : matchUriAt (c :: t) with _ | ⟨v, rem⟩
        · simp only [scanUriF, hmt]
          have h1 : t.length ≤ n := by simpa using hn
          have h2 : t.length ≤ m' := by simpa using hm
          rw [ih m' t h1 h2]
        · have hrem := matchUriAt_some_length hmt
          simp only [List.length_cons] at hrem
          simp only [scanUriF, hmt]
          simp only [List.length_cons] at hn hm
          rw [ih m' rem (by omega) (by omega)]

theorem uriCapsF_fuel :
    ∀ (n m : Nat) (l : List Char), l.length ≤ n → l.length ≤ m →
      uriCapsF n l = uriCapsF m l := by
  intro n
  induction n with
  | zero =>
    intro m l hn _
    have h0 : l = [] := List.length_eq_zero.mp (Nat.le_zero.mp hn)
    subst h0
    cases m <;> rfl
  | succ n ih =>
    intro m l hn hm
    cases l with
    | nil => cases m <;> rfl
    | cons c t =>
      cases m with
      | zero => simp at hm
      | succ m' =>
        rcases hmt : matchUriAt (c :: t) with _ | ⟨v, rem⟩
        · simp only [uriCapsF, hmt]
          exact ih m' t (by simpa using hn) (by simpa using hm)
        · have hrem := matchUriAt_some_length hmt
          simp only [List.length_cons] at hrem
          simp only [uriCapsF, hmt]
          simp only [List.length_cons] at hn hm
          rw [ih m' rem (by omega) (by omega)]

theorem noOpenF_fuel :
    ∀ (n m : Nat) (l : List Char), l.length ≤ n → l.length ≤ m →
      noOpenF n l = noOpenF m l := by
  intro n
  induction n with
  | zero =>
    intro m l hn _
    have h0 : l = [] := List.length_eq_zero.mp (Nat.le_zero.mp hn)
    subst h0
    cases m <;> rfl
  | succ n ih =>
    intro m l hn hm
    cases l with
    | nil => cases m <;> rfl
    | cons c t =>
      cases m with
      | zero => simp at hm
      | succ m' =>
        rcases hmt : matchUriAt (c :: t) with _ | ⟨v, rem⟩
        · simp only [noOpenF, hmt]
          rw [ih m' t (by simpa using hn) (by simpa using hm)]
        · have hrem := matchUriAt_some_length hmt
          simp only [List.length_cons] at hrem
          simp only [noOpenF, hmt]
          simp only [List.length_cons] at hn hm
          rw [ih m' rem (by omega) (by omega)]

/-! Unfolding equations phrased at the wrappers. -/

theorem uriReplaceAll_nil (f : List Char → List Char) : uriReplaceAll f [] = [] := rfl

theorem uriReplaceAll_cons_some {c : Char} {t v rem : List Char}
    (f : List Char → List Char) (hm : matchUriAt (c :: t) = some (v, rem)) :
    uriReplaceAll f (c :: t) = f v ++ uriReplaceAll f rem := by
  have hrem := matchUriAt_some_length hm
  simp only [List.length_cons] at hrem
  show scanUriF f ((c :: t).length) (c :: t) = _
  simp only [List.length_cons, scanUriF, hm]
  rw [scanUriF_fuel f t.length rem.length rem (by omega) (Nat.le_refl _)]
  rfl

theorem uriReplaceAll_cons_none {c : Char} {t : List Char}
    (f : List Char → List Char) (hm : matchUriAt (c :: t) = none) :
    uriReplaceAll f (c :: t) = c :: uriReplaceAll f t := by
  show scanUriF f ((c :: t).length) (c :: t) = _
  simp only [List.length_cons, scanUriF, hm]
  rfl

theorem uriCaps_nil : uriCaps [] = [] := rfl

theorem uriCaps_cons_some {c : Char} {t v rem : List Char}
    (hm : matchUriAt (c :: t) = some (v, rem)) :
    uriCaps (c :: t) = v :: uriCaps rem := by
  have hrem := matchUriAt_some_length hm
  simp only [List.length_cons] at hrem
  show uriCapsF ((c :: t).length) (c :: t) = _
  simp only [List.length_cons, uriCapsF, hm]
  rw [uriCapsF_fuel t.length rem.length rem (by omega) (Nat.le_refl _)]
  rfl

theorem uriCaps_cons_none {c : Char} {t : List Char}
    (hm : matchUriAt (c :: t) = none) :
    uriCaps (c :: t) = uriCaps t := by
  show uriCapsF ((c :: t).length) (c :: t) = _
  simp only [List.length_cons, uriCapsF, hm]
  rfl

theorem noOpen_nil : noOpen [] = true := rfl

theorem noOpen_cons_some {c : Char} {t v rem : List Char}
    (hm : matchUriAt (c :: t) = some (v, rem)) :
    noOpen (c :: t) = noOpen rem := by
  have hrem := matchUriAt_some_length hm
  simp only [List.length_cons] at hrem
  show noOpenF ((c :: t).length) (c :: t) = _
  simp only [List.length_cons, noOpenF, hm]
  rw [noOpenF_fuel t.length rem.length rem (by omega) (Nat.le_refl _)]
  rfl

theorem noOpen_cons_none {c : Char} {t : List Char}
    (hm : matchUriAt (c :: t) = none) :
    noOpen (c :: t) = if isUriOpenAt (c :: t) then false else noOpen t := by
  show noOpenF ((c :: t).length) (c :: t) = _
  simp only [List.length_cons, noOpenF, hm]
  rfl

/-! ### Appending text to a scanned region

A match can only straddle the border between `xs` and appended text when
the occurrence of `URI="` in `xs` is unclosed (hence `noOpen`), or when the
appended text begins with one of the pattern characters (excluded whenever
it begins with whitespace, as is the case for a newline separator). -/

/-- The appended text is empty or begins with whitespace. -/
def wsHead (zs : List Char) : Prop := ∀ c, zs.head? = some c → isWs c = true

theorem wsHead_of_all {zs : List Char} (h : ∀ c ∈ zs, isWs c = true) : wsHead zs := by
  intro c hc
  cases zs with
  | nil => simp at hc
  | cons a t =>
    simp only [List.head?_cons, Option.some.injEq] at hc
    exact hc ▸ h a (by simp)

theorem stop_append {p : Char → Bool} {a : List Char} (b : List Char)
    (h : a.dropWhile p ≠ []) :
    (a ++ b).takeWhile p = a.takeWhile p ∧
    (a ++ b).dropWhile p = a.dropWhile p ++ b := by
  constructor
  · rw [List.takeWhile_append, if_neg]
    intro hlen
    have hsum := congrArg List.length (List.takeWhile_append_dropWhile p a)
    rw [List.length_append, hlen] at hsum
    have : (a.dropWhile p).length = 0 := by omega
    exact h (List.length_eq_zero.mp this)
  · rw [List.dropWhile_append, if_neg]
    intro hcon
    exact h (List.isEmpty_iff.mp hcon)

theorem mem_uriPat {c : Char} (h : c ∈ uriPat) :
    c = 'U' ∨ c = 'R' ∨ c = 'I' ∨ c = '=' ∨ c = '"' := by
  simpa [uriPat] using h

theorem take5_append_ne {xs zs : List Char}
    (ht : xs.take 5 ≠ uriPat) (hz : wsHead zs) : (xs ++ zs).take 5 ≠ uriPat := by
  intro hcon
  by_cases h5 : 5 ≤ xs.length
  · rw [List.take_append_of_le_length h5] at hcon
    exact ht hcon
  · push_neg at h5
    rw [List.take_append_eq_append_take, List.take_of_length_le (by omega)] at hcon
    cases zs with
    | nil =>
      rw [List.take_nil, List.append_nil] at hcon
      have := congrArg List.length hcon
      simp [uriPat] at this
      omega
    | cons z zs' =>
      have hz2 : isWs z = true := hz z rfl
      have hk : 0 < 5 - xs.length := by omega
      have hzmem : z ∈ uriPat := by
        rw [← hcon]
        apply List.mem_append_right
        rcases hk5 : 5 - xs.length with _ | k
        · omega
        · simp [List.take_cons]
      obtain ⟨n1, n2, n3, n4, n5, -, -⟩ := isWs_ne_pat hz2
      rcases mem_uriPat hzmem with h | h | h | h | h <;> simp_all

/-- Evaluation of `matchUriAt` once the shape of the text after the literal
`URI="` is known. -/
theorem matchUriAt_eval {l after : List Char} (ht : l.take 5 = uriPat)
    (hd : (l.drop 5).dropWhile notQuote = '"' :: after) :
    matchUriAt l =
      if ((l.drop 5).takeWhile notQuote).isEmpty then none
      else some ((l.drop 5).takeWhile notQuote, after) := by
  unfold matchUriAt
  rw [if_pos ht, hd]
  rfl

theorem matchUriAt_build (v rem : List Char) (hv : v ≠ []) (hq : '"' ∉ v) :
    matchUriAt (uriPat ++ v ++ '"' :: rem) = some (v, rem) := by
  have hvpos : ∀ c ∈ v, notQuote c = true := by
    intro c hc
    simp only [notQuote, bne_iff_ne, ne_eq]
    intro hcon
    exact hq (hcon ▸ hc)
  have hlen5 : (5 : Nat) ≤ uriPat.length := by simp [uriPat]
  have htk : (uriPat ++ v ++ '"' :: rem).take 5 = uriPat := by
    rw [List.append_assoc, List.take_append_of_le_length hlen5]
    rfl
  have hdr : (uriPat ++ v ++ '"' :: rem).drop 5 = v ++ '"' :: rem := by
    rw [List.append_assoc, List.drop_append_of_le_length hlen5]
    rfl
  have hdw : ((uriPat ++ v ++ '"' :: rem).drop 5).dropWhile notQuote = '"' :: rem := by
    rw [hdr, List.dropWhile_append_of_pos hvpos, List.dropWhile_cons,
      if_neg (by simp [notQuote])]
  have htw : ((uriPat ++ v ++ '"' :: rem).drop 5).takeWhile notQuote = v := by
    rw [hdr, List.takeWhile_append_of_pos hvpos, List.takeWhile_cons,
      if_neg (by simp [notQuote]), List.append_nil]
  rw [matchUriAt_eval htk hdw, htw, if_neg (by simpa [List.isEmpty_iff] using hv)]

theorem matchUriAt_append_some {xs zs v rem : List Char}
    (hm : matchUriAt xs = some (v, rem)) :
    matchUriAt (xs ++ zs) = some (v, rem ++ zs) := by
  obtain ⟨hx, hv, hq⟩ := matchUriAt_some hm
  rw [hx, List.append_assoc, List.append_assoc]
  have := matchUriAt_build v (rem ++ zs) hv hq
  rw [List.append_assoc] at this
  simpa using this

theorem isUriOpenAt_false_elim {xs : List Char}
    (h : isUriOpenAt xs = false) (ht : xs.take 5 = uriPat) : '"' ∈ xs.drop 5 := by
  unfold isUriOpenAt at h
  rw [decide_eq_true ht] at h
  simpa using h

theorem matchUriAt_append_none {xs zs : List Char}
    (hm : matchUriAt xs = none) (hopen : isUriOpenAt xs = false) (hz : wsHead zs) :
    matchUriAt (xs ++ zs) = none := by
  by_cases ht : xs.take 5 = uriPat
  · have hq : '"' ∈ xs.drop 5 := isUriOpenAt_false_elim hopen ht
    have h5 : 5 ≤ xs.length := by
      have := congrArg List.length ht
      rw [List.length_take] at this
      simp [uriPat] at this
      omega
    have hdwne : (xs.drop 5).dropWhile notQuote ≠ [] := by
      intro hcon
      have := List.dropWhile_eq_nil_iff.mp hcon '"' hq
      simp [notQuote] at this
    -- the head of `dropWhile notQuote (xs.drop 5)` is `'"'`
    rcases hshape : (xs.drop 5).dropWhile notQuote with _ | ⟨q, after⟩
    · exact absurd hshape hdwne
    · have hqhead := List.head?_dropWhile_not notQuote (xs.drop 5)
      rw [hshape] at hqhead
      simp only [List.head?_cons] at hqhead
      simp only [notQuote, bne_eq_false_iff_eq] at hqhead
      subst hqhead
      obtain ⟨htw, hdw⟩ := stop_append (p := notQuote) (a := xs.drop 5) zs
        (by rw [hshape]; simp)
      -- from hm, the capture must have been empty
      rw [matchUriAt_eval ht hshape] at hm
      by_cases hemp : ((xs.drop 5).takeWhile notQuote).isEmpty
      · have htk2 : (xs ++ zs).take 5 = uriPat := by
          rw [List.take_append_of_le_length h5, ht]
        have hdw2 : ((xs ++ zs).drop 5).dropWhile notQuote = '"' :: (after ++ zs) := by
          rw [List.drop_append_of_le_length h5, hdw, hshape]
          rfl
        rw [matchUriAt_eval htk2 hdw2, if_pos]
        rw [List.drop_append_of_le_length h5, htw]
        exact hemp
      · rw [if_neg hemp] at hm
        simp at hm
  · unfold matchUriAt
    rw [if_neg (take5_append_ne ht hz)]

theorem isUriOpenAt_append_false {xs zs : List Char}
    (h : isUriOpenAt xs = false) (hz : wsHead zs) : isUriOpenAt (xs ++ zs) = false := by
  by_cases ht : xs.take 5 = uriPat
  · have hq : '"' ∈ xs.drop 5 := isUriOpenAt_false_elim h ht
    have h5 : 5 ≤ xs.length := by
      have := congrArg List.length ht
      rw [List.length_take] at this
      simp [uriPat] at this
      omega
    unfold isUriOpenAt
    rw [List.drop_append_of_le_length h5]
    have : '"' ∈ xs.drop 5 ++ zs := List.mem_append_left _ hq
    simp [this]
  · unfold isUriOpenAt
    rw [decide_eq_false (take5_append_ne ht hz)]
    rfl

theorem matchUriAt_head_ws {c : Char} {t : List Char} (h : isWs c = true) :
    matchUriAt (c :: t) = none ∧ isUriOpenAt (c :: t) = false := by
  obtain ⟨hU, -, -, -, -, -, -⟩ := isWs_ne_pat h
  have ht : (c :: t).take 5 ≠ uriPat := by
    intro hcon
    rw [List.take_cons (by omega)] at hcon
    exact hU (by injection hcon)
  constructor
  · unfold matchUriAt
    rw [if_neg ht]
  · unfold isUriOpenAt
    rw [decide_eq_false ht]
    rfl

/-- Scanning pure whitespace does nothing. -/
theorem scan_ws_all (f : List Char → List Char) {zs : List Char}
    (h : ∀ c ∈ zs, isWs c = true) :
    uriReplaceAll f zs = zs ∧ uriCaps zs = [] ∧ noOpen zs = true := by
  induction zs with
  | nil => exact ⟨rfl, rfl, rfl⟩
  | cons c t ih =>
    obtain ⟨hm, hop⟩ := matchUriAt_head_ws (h c (by simp))
    obtain ⟨h1, h2, h3⟩ := ih fun x hx => h x (by simp [hx])
    refine ⟨?_, ?_, ?_⟩
    · rw [uriReplaceAll_cons_none f hm, h1]
    · rw [uriCaps_cons_none hm, h2]
    · rw [noOpen_cons_none hm, hop, if_neg (by simp), h3]

/-- A whitespace prefix passes through the scanner untouched. -/
theorem scan_ws_prepend (f : List Char → List Char) {pre : List Char}
    (h : ∀ c ∈ pre, isWs c = true) (xs : List Char) :
    uriReplaceAll f (pre ++ xs) = pre ++ uriReplaceAll f xs ∧
    uriCaps (pre ++ xs) = uriCaps xs ∧
    noOpen (pre ++ xs) = noOpen xs := by
  induction pre with
  | nil => exact ⟨rfl, rfl, rfl⟩
  | cons c t ih =>
    obtain ⟨h1, h2, h3⟩ := ih fun x hx => h x (by simp [hx])
    obtain ⟨hmc, hoc⟩ := matchUriAt_head_ws (c := c) (t := t ++ xs) (h c (by simp))
    refine ⟨?_, ?_, ?_⟩
    · rw [List.cons_append, uriReplaceAll_cons_none f hmc, h1]
      rfl
    · rw [List.cons_append, uriCaps_cons_none hmc, h2]
    · rw [List.cons_append, noOpen_cons_none hmc, hoc, if_neg (by simp), h3]

/-- Distribution of the scanner over an append whose left part has no open
`URI="` and whose right part starts with whitespace. -/
theorem scan_append (f : List Char → List Char) :
    ∀ (xs zs : List Char), noOpen xs = true → wsHead zs →
      uriReplaceAll f (xs ++ zs) = uriReplaceAll f xs ++ uriReplaceAll f zs ∧
      uriCaps (xs ++ zs) = uriCaps xs ++ uriCaps zs ∧
      noOpen (xs ++ zs) = noOpen zs
  | [], zs, _, _ => ⟨rfl, rfl, rfl⟩
  | c :: t, zs, hno, hz => by
    rcases hm : matchUriAt (c :: t) with _ | ⟨v, rem⟩
    · have heq := noOpen_cons_none hm
      rw [hno] at heq
      have hop : isUriOpenAt (c :: t) = false := by
        by_cases hcon : isUriOpenAt (c :: t) = true
        · rw [if_pos hcon] at heq; exact absurd heq.symm (by simp)
        · exact Bool.eq_false_iff.mpr hcon
      have hnt : noOpen t = true := by
        rw [if_neg (by simp [hop])] at heq
        exact heq.symm
      have hmc : matchUriAt ((c :: t) ++ zs) = none :=
        matchUriAt_append_none hm hop hz
      have hoc : isUriOpenAt ((c :: t) ++ zs) = false :=
        isUriOpenAt_append_false hop hz
      obtain ⟨h1, h2, h3⟩ := scan_append f t zs hnt hz
      rw [List.cons_append] at hmc hoc
      refine ⟨?_, ?_, ?_⟩
      · rw [List.cons_append, uriReplaceAll_cons_none f hmc, h1,
          uriReplaceAll_cons_none f hm]
        rfl
      · rw [List.cons_append, uriCaps_cons_none hmc, h2, uriCaps_cons_none hm]
      · rw [List.cons_append, noOpen_cons_none hmc, hoc, if_neg (by simp), h3]
    · have hrem := matchUriAt_some_length hm
      simp only [List.length_cons] at hrem
      have hlt : rem.length < t.length + 1 := by omega
      have hnr : noOpen rem = true := by
        rw [← noOpen_cons_some hm]
        exact hno
      have hmc := @matchUriAt_append_some _ zs _ _ hm
      rw [List.cons_append] at hmc
      obtain ⟨h1, h2, h3⟩ := scan_append f rem zs hnr hz
      refine ⟨?_, ?_, ?_⟩
      · rw [List.cons_append, uriReplaceAll_cons_some f hmc, h1,
          uriReplaceAll_cons_some f hm, List.append_assoc]
      · rw [List.cons_append, uriCaps_cons_some hmc, h2, uriCaps_cons_some hm]
        rfl
      · rw [List.cons_append, noOpen_cons_some hmc]
        exact h3
  termination_by xs _ _ _ => xs.length
  decreasing_by
  · simp only [List.length_cons]
    omega
  · simp only [List.length_cons]
    omega

/-! ## Model of the external `url` crate (WHATWG URL standard)

The repository uses `url::Url` for three things only: `Url::parse` (success
or failure decides several branches), `Url::path_segments` (for local
filenames), and `Url::join` (relative reference resolution).  The model
below covers ASCII input and omits percent-encoding, IDNA host mapping and
IPv6 bracket syntax, which no claim touches.  `path_segments` is translated
directly from the crate's source:
`self.path().strip_prefix('/').map(|remainder| remainder.split('/'))`. -/

structure Url where
  scheme : List Char
  host : Option (List Char)
  port : Option (List Char)
  path : List Char
  deriving DecidableEq

/-- WHATWG input preparation: strip leading/trailing C0 controls and spaces,
then remove every ASCII tab and newline. -/
def inputClean (l : List Char) : List Char :=
  (((l.dropWhile fun c => c.toNat ≤ 0x20).reverse.dropWhile
      fun c => c.toNat ≤ 0x20).reverse).filter
    fun c => !(c = '\t' || c = '\n' || c = '\r')

def isSchemeChar (c : Char) : Bool := c.isAlphanum || c = '+' || c = '-' || c = '.'

def specialSchemes : List (List Char) :=
  ["http".toList, "https".toList, "ws".toList, "wss".toList,
   "ftp".toList, "file".toList]

def isSpecialScheme (s : List Char) : Bool := specialSchemes.contains s

/-- `str::split('/')` on the path remainder: always at least one part. -/
def splitOnChar (sep : Char) (l : List Char) : List (List Char) :=
  l.foldr
    (fun c acc =>
      if c = sep then [] :: acc
      else
        match acc with
        | [] => [[c]]
        | a :: as => (c :: a) :: as)
    [[]]

/-- WHATWG path state: drop single-dot segments, pop on double-dot segments
(appending an empty segment when the dot segment is final). -/
def collapseDotsAux : List (List Char) → List (List Char) → List (List Char)
  | acc, [] => acc.reverse
  | acc, s :: rest =>
    if s = ['.'] then
      if rest = [] then ([] :: acc).reverse else collapseDotsAux acc rest
    else if s = ['.', '.'] then
      if rest = [] then ([] :: acc.tail).reverse else collapseDotsAux acc.tail rest
    else collapseDotsAux (s :: acc) rest

def collapseDots (segs : List (List Char)) : List (List Char) :=
  collapseDotsAux [] segs

def joinSegs : List (List Char) → List Char
  | [] => []
  | [s] => s
  | s :: rest => s ++ '/' :: joinSegs rest

/-- Characters of a path source text with `'\\'` treated as `'/'` for
special URLs. -/
def bsToSlash (special : Bool) (cs : List Char) : List Char :=
  if special then cs.map (fun c => if c = '\\' then '/' else c) else cs

/-- Serialize a hierarchical path from its raw text (query/fragment already
removed); special URLs treat `'\\'` as `'/'`. -/
def hierPath (special : Bool) (cs : List Char) : List Char :=
  '/' :: joinSegs (collapseDots (splitOnChar '/'
    (if (bsToSlash special cs).head? = some '/' then (bsToSlash special cs).tail
     else bsToSlash special cs)))

/-- Characters after the last `'@'` (userinfo is dropped from the
authority). -/
def afterLastAt (l : List Char) : List Char :=
  (l.reverse.takeWhile (· != '@')).reverse

/-- Split the host-port text at the first `':'`; a port must be all digits
(else the whole parse fails); an empty port is treated as absent; special
URLs require a non-empty host. -/
def parseHostPort (special : Bool) (hp : List Char) :
    Option (Option (List Char) × Option (List Char)) :=
  let h := hp.takeWhile (· != ':')
  match hp.dropWhile (· != ':') with
  | [] => if special && decide (h = []) then none else some (some h, none)
  | _ :: p =>
    if !(p.all Char.isDigit) then none
    else if special && decide (h = []) then none
    else some (some h, if p = [] then none else some p)

def notAuthEnd (c : Char) : Bool := !(c = '/' || c = '\\' || c = '?' || c = '#')

def notAuthEndNS (c : Char) : Bool := !(c = '/' || c = '?' || c = '#')

def notQueryFrag (c : Char) : Bool := !(c = '?' || c = '#')

/-- The scheme of the input: its scheme-characters prefix, lowercased. -/
def schemeOf (s : String) : List Char :=
  ((inputClean s.toList).takeWhile isSchemeChar).map Char.toLower

/-- Special authority slashes: all leading `'/'` and `'\\'` are consumed. -/
def skipSlashes (rest : List Char) : List Char :=
  rest.dropWhile fun c => c = '/' || c = '\\'

/-- Model of `Url::parse`. -/
def Url.parse (s : String) : Option Url :=
  match (inputClean s.toList).head? with
  | none => none
  | some c =>
    if ¬ c.isAlpha then none
    else
      match (inputClean s.toList).dropWhile isSchemeChar with
      | ':' :: rest =>
        if isSpecialScheme (schemeOf s) then
          if schemeOf s = "file".toList then
            match rest with
            | '/' :: '/' :: rest2 =>
              some ⟨schemeOf s, some (rest2.takeWhile notAuthEnd), none,
                hierPath true ((rest2.dropWhile notAuthEnd).takeWhile notQueryFrag)⟩
            | _ =>
              some ⟨schemeOf s, some [], none, hierPath true (rest.takeWhile notQueryFrag)⟩
          else
            match parseHostPort true (afterLastAt ((skipSlashes rest).takeWhile notAuthEnd)) with
            | none => none
            | some (h, p) =>
              some ⟨schemeOf s, h, p,
                hierPath true (((skipSlashes rest).dropWhile notAuthEnd).takeWhile notQueryFrag)⟩
        else
          match rest with
          | '/' :: '/' :: rest2 =>
            match parseHostPort false (afterLastAt (rest2.takeWhile notAuthEndNS)) with
            | none => none
            | some (h, p) =>
              if (rest2.dropWhile notAuthEndNS).takeWhile notQueryFrag = [] then
                some ⟨schemeOf s, h, p, []⟩
              else
                some ⟨schemeOf s, h, p,
                  hierPath false ((rest2.dropWhile notAuthEndNS).takeWhile notQueryFrag)⟩
          | _ => some ⟨schemeOf s, none, none, rest.takeWhile notQueryFrag⟩
      | _ => none

/-- `Url::path_segments`, translated from the crate's source:
`path.strip_prefix('/')` followed by `split('/')`. -/
def Url.pathSegments (u : Url) : Option (List (List Char)) :=
  match u.path with
  | '/' :: rest => some (splitOnChar '/' rest)
  | _ => none

/-- The path text up to and including the final `'/'` (RFC 3986 merge). -/
def dirOf (path : List Char) : List Char :=
  (path.reverse.dropWhile (· != '/')).reverse

/-- Model of `Url::join` (relative reference resolution), restricted to the
reference forms the tool exercises. -/
def Url.join (base : Url) (s : String) : Option Url :=
  let cs := inputClean s.toList
  if cs = [] then some base
  else
    match cs with
    | '/' :: '/' :: _ => Url.parse (String.mk (base.scheme ++ ':' :: cs))
    | '/' :: _ =>
      some { base with path := hierPath (isSpecialScheme base.scheme) (cs.takeWhile notQueryFrag) }
    | '?' :: _ => some base
    | '#' :: _ => some base
    | _ =>
      match base.path with
      | '/' :: _ =>
        some { base with
          path := hierPath (isSpecialScheme base.scheme)
            (dirOf base.path ++ cs.takeWhile notQueryFrag) }
      | _ => none

/-! ### Facts about the `url` model -/

theorem mem_of_dropWhile {p : Char → Bool} {l : List Char} {c : Char}
    (h : c ∈ l.dropWhile p) : c ∈ l :=
  (List.dropWhile_sublist p).subset h

theorem mem_inputClean {s : List Char} {c : Char} (h : c ∈ inputClean s) : c ∈ s := by
  unfold inputClean at h
  have h1 := List.mem_of_mem_filter h
  rw [List.mem_reverse] at h1
  have h2 := mem_of_dropWhile h1
  rw [List.mem_reverse] at h2
  exact mem_of_dropWhile h2

theorem inputClean_no_nl {s : List Char} : '\n' ∉ inputClean s := by
  intro h
  unfold inputClean at h
  have := List.mem_filter.mp h
  simp at this

/-- `Url::parse` fails on any string without a colon (no scheme, hence
`RelativeUrlWithoutBase`). -/
theorem Url.parse_none_of_no_colon {s : String} (h : ':' ∉ s.toList) :
    Url.parse s = none := by
  unfold Url.parse
  split
  · rfl
  · next c hc =>
    by_cases ha : c.isAlpha
    · rw [if_neg (by simp [ha])]
      rcases hd : (inputClean s.toList).dropWhile isSchemeChar with _ | ⟨d, ds⟩
      · rfl
      · have hdin : d ∈ inputClean s.toList := by
          have hmem : d ∈ (inputClean s.toList).dropWhile isSchemeChar := by
            rw [hd]; simp
          exact mem_of_dropWhile hmem
        have hdne : d ≠ ':' := by
          intro hcon
          exact h (mem_inputClean (hcon ▸ hdin))
        split
        · next rest heq =>
          injection heq with h1 h2
          exact absurd h1 hdne
        · rfl
    · rw [if_pos ha]

theorem mem_splitOnChar {sep : Char} {l : List Char} {x : List Char}
    (hx : x ∈ splitOnChar sep l) : ∀ c ∈ x, c ∈ l := by
  induction l generalizing x with
  | nil =>
    intro c hc
    unfold splitOnChar at hx
    simp only [List.foldr_nil, List.mem_singleton] at hx
    subst hx
    simp at hc
  | cons a t ih =>
    intro c hc
    have hstep : splitOnChar sep (a :: t) =
        if a = sep then [] :: splitOnChar sep t
        else
          match splitOnChar sep t with
          | [] => [[a]]
          | b :: bs => (a :: b) :: bs := by
      unfold splitOnChar
      rw [List.foldr_cons]
    rw [hstep] at hx
    by_cases ha : a = sep
    · rw [if_pos ha] at hx
      rcases List.mem_cons.mp hx with h1 | h1
      · subst h1; simp at hc
      · exact List.mem_cons_of_mem a (ih h1 c hc)
    · rw [if_neg ha] at hx
      rcases hsp : splitOnChar sep t with _ | ⟨b, bs⟩
      · rw [hsp] at hx
        simp only [List.mem_singleton] at hx
        subst hx
        simp only [List.mem_singleton] at hc
        subst hc
        simp
      · rw [hsp] at hx
        rcases List.mem_cons.mp hx with h1 | h1
        · subst h1
          rcases List.mem_cons.mp hc with h2 | h2
          · subst h2; simp
          · exact List.mem_cons_of_mem a (ih (by rw [hsp]; simp) c h2)
        · exact List.mem_cons_of_mem a (ih (by rw [hsp]; simp [h1]) c hc)

theorem splitOnChar_ne_nil (sep : Char) (l : List Char) : splitOnChar sep l ≠ [] := by
  induction l with
  | nil => simp [splitOnChar]
  | cons a t ih =>
    unfold splitOnChar
    rw [List.foldr_cons]
    by_cases ha : a = sep
    · rw [if_pos ha]; simp
    · rw [if_neg ha]
      rcases hsp : (t.foldr _ [[]] : List (List Char)) with _ | ⟨b, bs⟩
      · simp
      · simp

theorem mem_collapseDotsAux {x : List Char} :
    ∀ {acc segs : List (List Char)}, x ∈ collapseDotsAux acc segs →
      x ∈ acc ∨ x ∈ segs ∨ x = [] := by
  intro acc segs
  induction segs generalizing acc with
  | nil =>
    intro h
    unfold collapseDotsAux at h
    rw [List.mem_reverse] at h
    exact Or.inl h
  | cons s rest ih =>
    intro h
    unfold collapseDotsAux at h
    by_cases h1 : s = ['.']
    · rw [if_pos h1] at h
      by_cases h2 : rest = []
      · rw [if_pos h2] at h
        rw [List.mem_reverse] at h
        rcases List.mem_cons.mp h with h3 | h3
        · exact Or.inr (Or.inr h3)
        · exact Or.inl h3
      · rw [if_neg h2] at h
        rcases ih h with h3 | h3 | h3
        · exact Or.inl h3
        · exact Or.inr (Or.inl (by simp [h3]))
        · exact Or.inr (Or.inr h3)
    · rw [if_neg h1] at h
      by_cases h1b : s = ['.', '.']
      · rw [if_pos h1b] at h
        by_cases h2 : rest = []
        · rw [if_pos h2] at h
          rw [List.mem_reverse] at h
          rcases List.mem_cons.mp h with h3 | h3
          · exact Or.inr (Or.inr h3)
          · exact Or.inl (List.mem_of_mem_tail h3)
        · rw [if_neg h2] at h
          rcases ih h with h3 | h3 | h3
          · exact Or.inl (List.mem_of_mem_tail h3)
          · exact Or.inr (Or.inl (by simp [h3]))
          · exact Or.inr (Or.inr h3)
      · rw [if_neg h1b] at h
        rcases ih h with h3 | h3 | h3
        · rcases List.mem_cons.mp h3 with h4 | h4
          · exact Or.inr (Or.inl (by simp [h4]))
          · exact Or.inl h4
        · exact Or.inr (Or.inl (by simp [h3]))
        · exact Or.inr (Or.inr h3)

theorem mem_joinSegs {c : Char} :
    ∀ {segs : List (List Char)}, c ∈ joinSegs segs →
      c = '/' ∨ ∃ x ∈ segs, c ∈ x := by
  intro segs
  induction segs with
  | nil =>
    intro h
    simp [joinSegs] at h
  | cons s rest ih =>
    intro h
    rcases rest with _ | ⟨y, rest'⟩
    · exact Or.inr ⟨s, by simp, h⟩
    · rw [show joinSegs (s :: y :: rest') = s ++ '/' :: joinSegs (y :: rest') from rfl] at h
      rcases List.mem_append.mp h with h1 | h1
      · exact Or.inr ⟨s, by simp, h1⟩
      · rcases List.mem_cons.mp h1 with h2 | h2
        · exact Or.inl h2
        · rcases ih h2 with h3 | ⟨x, hx, hcx⟩
          · exact Or.inl h3
          · exact Or.inr ⟨x, by simp [hx], hcx⟩

theorem mem_bsToSlash {d : Char} {special : Bool} {cs : List Char}
    (hd : d ∈ bsToSlash special cs) : d = '/' ∨ d ∈ cs := by
  unfold bsToSlash at hd
  by_cases hs : special
  · rw [if_pos (by simp [hs])] at hd
    obtain ⟨e, he, hde⟩ := List.mem_map.mp hd
    by_cases hbs : e = '\\'
    · rw [if_pos hbs] at hde
      exact Or.inl hde.symm
    · rw [if_neg hbs] at hde
      exact Or.inr (hde ▸ he)
  · rw [if_neg (by simp [hs])] at hd
    exact Or.inr hd

theorem mem_hierPath {c : Char} {special : Bool} {cs : List Char}
    (h : c ∈ hierPath special cs) : c = '/' ∨ c ∈ cs := by
  unfold hierPath at h
  rcases List.mem_cons.mp h with h1 | h1
  · exact Or.inl h1
  · rcases mem_joinSegs h1 with h2 | ⟨x, hx, hcx⟩
    · exact Or.inl h2
    · rcases mem_collapseDotsAux hx with h3 | h3 | h3
      · simp at h3
      · have hbody := mem_splitOnChar h3 c hcx
        have hcs2 : c ∈ bsToSlash special cs := by
          by_cases hh : (bsToSlash special cs).head? = some '/'
          · rw [if_pos hh] at hbody
            exact List.mem_of_mem_tail hbody
          · rw [if_neg hh] at hbody
            exact hbody
        exact mem_bsToSlash hcs2
      · rw [h3] at hcx
        simp at hcx

/-- Any character of a parsed URL's path is a slash or a character of the
(cleaned) input. -/
theorem Url.parse_path_chars {s : String} {u : Url} (h : Url.parse s = some u) :
    ∀ ch ∈ u.path, ch = '/' ∨ ch ∈ inputClean s.toList := by
  intro ch hch
  unfold Url.parse at h
  split at h
  · exact absurd h (by simp)
  · split at h
    · exact absurd h (by simp)
    · split at h
      · next rest heq =>
        have hrest : List.Sublist rest (inputClean s.toList) := by
          have h1 : List.Sublist (':' :: rest) (inputClean s.toList) :=
            heq ▸ List.dropWhile_sublist _
          exact (List.sublist_cons_self ':' rest).trans h1
        split at h
        · split at h
          · split at h
            · next rest2 =>
              -- file://
              have hsub : List.Sublist ((rest2.dropWhile notAuthEnd).takeWhile notQueryFrag)
                  (inputClean s.toList) := by
                refine (List.takeWhile_sublist _).trans ((List.dropWhile_sublist _).trans ?_)
                refine ((List.sublist_cons_self '/' rest2).trans ?_).trans hrest
                exact List.sublist_cons_self '/' ('/' :: rest2)
              rw [Option.some.injEq] at h
              rw [← h] at hch
              simp only at hch
              rcases mem_hierPath hch with h2 | h2
              · exact Or.inl h2
              · exact Or.inr (hsub.subset h2)
            · -- file without //
              rw [Option.some.injEq] at h
              rw [← h] at hch
              simp only at hch
              rcases mem_hierPath hch with h2 | h2
              · exact Or.inl h2
              · exact Or.inr (((List.takeWhile_sublist _).trans hrest).subset h2)
          · -- special, non-file
            split at h
            · exact absurd h (by simp)
            · next hp hhp =>
              rw [Option.some.injEq] at h
              rw [← h] at hch
              simp only at hch
              rcases mem_hierPath hch with h2 | h2
              · exact Or.inl h2
              · refine Or.inr (List.Sublist.subset ?_ h2)
                refine (List.takeWhile_sublist _).trans ((List.dropWhile_sublist _).trans ?_)
                exact (List.dropWhile_sublist _).trans hrest
        · -- non-special
          split at h
          · next rest2 =>
            split at h
            · exact absurd h (by simp)
            · split at h
              · rw [Option.some.injEq] at h
                rw [← h] at hch
                simp only at hch
                simp at hch
              · rw [Option.some.injEq] at h
                rw [← h] at hch
                simp only at hch
                rcases mem_hierPath hch with h2 | h2
                · exact Or.inl h2
                · refine Or.inr (List.Sublist.subset ?_ h2)
                  refine (List.takeWhile_sublist _).trans ((List.dropWhile_sublist _).trans ?_)
                  refine ((List.sublist_cons_self '/' rest2).trans ?_).trans hrest
                  exact List.sublist_cons_self '/' ('/' :: rest2)
          · -- opaque path
            rw [Option.some.injEq] at h
            rw [← h] at hch
            simp only at hch
            exact Or.inr (((List.takeWhile_sublist _).trans hrest).subset hch)
      · exact absurd h (by simp)

/-- The path of a parsed URL never contains a newline, tab or carriage
return: WHATWG removes them from the input before parsing. -/
theorem Url.parse_path_no_nl {s : String} {u : Url} (h : Url.parse s = some u) :
    '\n' ∉ u.path := by
  intro hmem
  rcases Url.parse_path_chars h '\n' hmem with h1 | h1
  · simp at h1
  · exact inputClean_no_nl h1

/-! ## The playlist model (src/playlist.rs) -/

/-- `str::starts_with` on character lists. -/
def startsWith (pre l : List Char) : Bool := pre.isPrefixOf l

/-- `str::contains` for a literal pattern: some suffix starts with it. -/
def containsPat (pat : List Char) : List Char → Bool
  | [] => pat.isEmpty
  | l@(_ :: t) => pat.isPrefixOf l || containsPat pat t

/-- First capture of `uri_regex.captures(line)`: leftmost match of
`URI="([^"]+)"`. -/
def firstUriCapture : List Char → Option (List Char)
  | [] => none
  | c :: t =>
    match matchUriAt (c :: t) with
    | some (v, _) => some v
    | none => firstUriCapture t

structure Playlist where
  content : String
  segments : List String
  url : Url
  deriving DecidableEq

namespace Playlist

/-- `Playlist::parse` (src/playlist.rs lines 13-36).  `Regex::new` of the
fixed, valid pattern `URI="([^"]+)"` never fails, so the only produced value
is `Ok`.  The loop over `content.lines()` pushes, per trimmed line: the
first quoted URI of an `#EXT-X-MAP:` line when present, or the line itself
when it is non-empty and not a comment. -/
def parse (content : String) (base_url : Url) : Except String Playlist :=
  Except.ok
    { content := content
      segments :=
        (rustLines content.toList).foldl
          (fun acc l =>
            if startsWith "#EXT-X-MAP:".toList (trimL l) then
              match firstUriCapture (trimL l) with
              | some v => acc ++ [String.mk v]
              | none => acc
            else if !startsWith ['#'] (trimL l) && !(trimL l).isEmpty then
              acc ++ [String.mk (trimL l)]
            else acc)
          []
      url := base_url }

/-- `Playlist::is_master_playlist` (src/playlist.rs lines 38-42):
`content.contains` of the three master-indicator substrings. -/
def is_master_playlist (content : String) : Bool :=
  containsPat "#EXT-X-STREAM-INF".toList content.toList ||
  containsPat "#EXT-X-MEDIA".toList content.toList ||
  containsPat "#EXT-X-I-FRAME-STREAM-INF".toList content.toList

/-- The body of `Playlist::extract_all_playlists` (src/playlist.rs lines
44-77).  The source iterates over the collected lines with lookahead
`lines.get(i + 1)`; here each line is paired with the remaining lines, whose
head is exactly that lookahead. -/
def extractGo : List (List Char) → List String
  | [] => []
  | l :: rest =>
    (if startsWith "#EXT-X-STREAM-INF".toList (trimL l) then
      match rest.head? with
      | some nl =>
        if !startsWith ['#'] (trimL nl) && !(trimL nl).isEmpty then
          [String.mk (trimL nl)]
        else []
      | none => []
    else if startsWith "#EXT-X-MEDIA".toList (trimL l) then
      match firstUriCapture (trimL l) with
      | some v => [String.mk v]
      | none => []
    else if startsWith "#EXT-X-I-FRAME-STREAM-INF".toList (trimL l) then
      match firstUriCapture (trimL l) with
      | some v => [String.mk v]
      | none => []
    else []) ++ extractGo rest

def extract_all_playlists (content : String) : List String :=
  extractGo (rustLines content.toList)

/-- The replacement closure of the first rewrite pass (src/playlist.rs
lines 83-93): parse the captured URI; on success replace the attribute by
`URI="<last path segment, or the original on a segment-less URL>"`; on
failure emit the full match unchanged. -/
def uriRewriteReplacement (v : List Char) : List Char :=
  match Url.parse (String.mk v) with
  | some url => uriPat ++ ((url.pathSegments.bind List.getLast?).getD v) ++ ['"']
  | none => uriPat ++ v ++ ['"']

/-- The per-line pass of `rewrite_content` (src/playlist.rs lines 96-113):
non-comment, non-empty trimmed lines that parse as URLs are replaced by
their last path segment (or kept when the URL has no segments); all other
lines are pushed trimmed. -/
def bareLineRewrite (t : List Char) : List Char :=
  match Url.parse (String.mk t) with
  | some url => (url.pathSegments.bind List.getLast?).getD t
  | none => t

/-- The loop body of the per-line pass: trim, then reduce URL lines. -/
def rewriteLinePass (l : List Char) : List Char :=
  if !startsWith ['#'] (trimL l) && !(trimL l).isEmpty then
    bareLineRewrite (trimL l)
  else trimL l

def rewriteChars (cs : List Char) : List Char :=
  joinNl ((rustLines (uriReplaceAll uriRewriteReplacement cs)).map rewriteLinePass)

/-- `Playlist::rewrite_content` (src/playlist.rs lines 79-117): the
`replace_all` pass over the whole content, then the per-line pass, joined
with `"\n"`. -/
def rewrite_content (p : Playlist) : String :=
  String.mk (rewriteChars p.content.toList)

end Playlist

/-! ## The legacy monolithic entry point (src/main.rs)

`src/main.rs` contains its own copies of the playlist logic as methods of
its `HlsCopier` (lines 75-221).  The `&self` receivers are ignored by the
bodies, so the functions are pure; `main.rs` also re-declares a `Playlist`
struct with exactly the fields of the modular one, rendered here by the
shared `Playlist` type. -/

namespace Main

/-- `HlsCopier::parse_playlist` (src/main.rs lines 75-98). -/
def parse_playlist (content : String) (base_url : Url) : Except String Playlist :=
  Except.ok
    { content := content
      segments :=
        (rustLines content.toList).foldl
          (fun acc l =>
            if startsWith "#EXT-X-MAP:".toList (trimL l) then
              match firstUriCapture (trimL l) with
              | some v => acc ++ [String.mk v]
              | none => acc
            else if !startsWith ['#'] (trimL l) && !(trimL l).isEmpty then
              acc ++ [String.mk (trimL l)]
            else acc)
          []
      url := base_url }

/-- `HlsCopier::is_master_playlist` (src/main.rs lines 100-104). -/
def is_master_playlist (content : String) : Bool :=
  containsPat "#EXT-X-STREAM-INF".toList content.toList ||
  containsPat "#EXT-X-MEDIA".toList content.toList ||
  containsPat "#EXT-X-I-FRAME-STREAM-INF".toList content.toList

/-- The loop body of `HlsCopier::extract_all_playlists` (src/main.rs lines
106-142). -/
def extractGo : List (List Char) → List String
  | [] => []
  | l :: rest =>
    (if startsWith "#EXT-X-STREAM-INF".toList (trimL l) then
      match rest.head? with
      | some nl =>
        if !startsWith ['#'] (trimL nl) && !(trimL nl).isEmpty then
          [String.mk (trimL nl)]
        else []
      | none => []
    else if startsWith "#EXT-X-MEDIA".toList (trimL l) then
      match firstUriCapture (trimL l) with
      | some v => [String.mk v]
      | none => []
    else if startsWith "#EXT-X-I-FRAME-STREAM-INF".toList (trimL l) then
      match firstUriCapture (trimL l) with
      | some v => [String.mk v]
      | none => []
    else []) ++ extractGo rest

def extract_all_playlists (content : String) : List String :=
  extractGo (rustLines content.toList)

/-- The replacement closure of `HlsCopier::rewrite_playlist` (src/main.rs
lines 187-197). -/
def uriRewriteReplacement (v : List Char) : List Char :=
  match Url.parse (String.mk v) with
  | some url => uriPat ++ ((url.pathSegments.bind List.getLast?).getD v) ++ ['"']
  | none => uriPat ++ v ++ ['"']

/-- The per-line pass of `HlsCopier::rewrite_playlist` (src/main.rs lines
199-218). -/
def bareLineRewrite (t : List Char) : List Char :=
  match Url.parse (String.mk t) with
  | some url => (url.pathSegments.bind List.getLast?).getD t
  | none => t

/-- `HlsCopier::rewrite_playlist` (src/main.rs lines 183-221). -/
def rewrite_playlist (p : Playlist) : String :=
  String.mk
    (joinNl
      ((rustLines (uriReplaceAll uriRewriteReplacement p.content.toList)).map
        (fun l =>
          if !startsWith ['#'] (trimL l) && !(trimL l).isEmpty then
            bareLineRewrite (trimL l)
          else trimL l)))

end Main

/-! ## The mirror orchestrator (src/hls_copier.rs)

The orchestrator's effects are modelled over explicit oracles for the two
external collaborators (HTTP fetch and filesystem writes); a successful run
returns its ordered log of file writes.  Progress-bar calls and
`create_dir_all` (no data flow) are omitted. -/

/-- One file write performed by the run: destination filename, bytes
written, and — for playlist writes — the fetched source text the written
bytes were derived from (`none` for segment writes). -/
structure HWrite where
  path : String
  data : String
  src : Option String
  deriving DecidableEq

/-- The external collaborators: playlist-text fetch (`fetch_playlist`),
segment-byte fetch (the HTTP part of `download_segment`), and the outcome
of each filesystem write, by destination filename.  An `Except.error`
models the corresponding `Err`. -/
structure FetchEnv where
  fetchText : Url → Except String String
  fetchBytes : Url → Except String String
  writeRes : String → Except String Unit

/-- `HlsCopier::resolve_url` (src/hls_copier.rs lines 58-64): an absolute
URL is returned unchanged, otherwise the reference is joined onto the
base. -/
def resolve_url (url_str : String) (base_url : Url) : Except String Url :=
  match Url.parse url_str with
  | some absolute_url => Except.ok absolute_url
  | none =>
    match base_url.join url_str with
    | some u => Except.ok u
    | none => Except.error "Failed to resolve relative URL"

/-- The local-filename derivation applied to every resolved URL
(src/hls_copier.rs lines 106-109, 140-142 and 153-155):
`url.path_segments().and_then(|segments| segments.last()).unwrap_or(fallback)`. -/
def localFilename (u : Url) (fallback : String) : String :=
  ((u.pathSegments.bind List.getLast?).map String.mk).getD fallback

/-- `HlsCopier::download_segment` (src/hls_copier.rs lines 66-95): fetch
the segment bytes, then write them under the local filename. -/
def download_segment (env : FetchEnv) (url : Url) (filename : String) :
    Except String HWrite := do
  let bytes ← env.fetchBytes url
  let _ ← env.writeRes filename
  Except.ok ⟨filename, bytes, none⟩

/-- Effectful map over a list, short-circuiting at the first error — the
semantics of collecting an iterator of `Result`s into `Result<Vec<_>>`. -/
def exceptMapM {α β : Type} (f : α → Except String β) : List α → Except String (List β)
  | [] => Except.ok []
  | x :: xs => do
    let y ← f x
    let ys ← exceptMapM f xs
    Except.ok (y :: ys)

/-- The resolve loop of `process_playlist` (src/hls_copier.rs lines
104-112): every segment reference is resolved against the playlist URL and
paired with its local filename. -/
def segmentTargets (playlist : Playlist) : Except String (List (Url × String)) :=
  exceptMapM
    (fun s => do
      let u ← resolve_url s playlist.url
      Except.ok (u, localFilename u s))
    playlist.segments

/-- `HlsCopier::process_playlist` (src/hls_copier.rs lines 97-135):
fetch and parse the playlist; if it has segments, resolve them all and
download them (`join_all` + `collect::<Result<Vec<_>>>` short-circuits to
the first error); finally write the rewritten playlist. -/
def process_playlist (env : FetchEnv) (playlist_url : Url) (local_filename : String) :
    Except String (List HWrite) := do
  let content ← env.fetchText playlist_url
  let playlist ← Playlist.parse content playlist_url
  let segWrites ←
    if !playlist.segments.isEmpty then do
      let targets ← segmentTargets playlist
      exceptMapM (fun t => download_segment env t.1 t.2) targets
    else Except.ok []
  let _ ← env.writeRes local_filename
  Except.ok (segWrites ++ [⟨local_filename, Playlist.rewrite_content playlist, some content⟩])

/-- The sequential sub-playlist loop of `copy_hls` (src/hls_copier.rs lines
151-158). -/
def copyLoop (env : FetchEnv) (base_url : Url) : List String → Except String (List HWrite)
  | [] => Except.ok []
  | ref :: rest => do
    let stream_playlist_url ← resolve_url ref base_url
    let w ← process_playlist env stream_playlist_url (localFilename stream_playlist_url ref)
    let ws ← copyLoop env base_url rest
    Except.ok (w ++ ws)

/-- `HlsCopier::copy_hls` (src/hls_copier.rs lines 137-164): fetch the
top-level playlist and write it verbatim; when it is a master playlist,
process each extracted sub-playlist sequentially, otherwise process the
top-level playlist itself. -/
def copy_hls (env : FetchEnv) (base_url : Url) : Except String (List HWrite) := do
  let master_content ← env.fetchText base_url
  let _ ← env.writeRes (localFilename base_url "playlist.m3u8")
  let ws ←
    if Playlist.is_master_playlist master_content then
      copyLoop env base_url (Playlist.extract_all_playlists master_content)
    else
      process_playlist env base_url (localFilename base_url "playlist.m3u8")
  Except.ok (⟨localFilename base_url "playlist.m3u8", master_content, some master_content⟩ :: ws)

/-! ## Support lemmas for the claims -/

theorem isPrefixOf_iff {p l : List Char} : p.isPrefixOf l = true ↔ p <+: l := by
  induction p generalizing l with
  | nil => simp [List.isPrefixOf]
  | cons a t ih =>
    cases l with
    | nil => simp [List.isPrefixOf]
    | cons b s =>
      simp only [List.isPrefixOf, Bool.and_eq_true, beq_iff_eq, List.cons_prefix_cons]
      exact and_congr Iff.rfl ih

theorem containsPat_iff {pat l : List Char} : containsPat pat l = true ↔ pat <:+: l := by
  induction l with
  | nil =>
    simp [containsPat, List.isEmpty_iff, List.infix_nil]
  | cons a t ih =>
    simp only [containsPat, Bool.or_eq_true, List.infix_cons_iff]
    exact or_congr isPrefixOf_iff ih

theorem firstUriCapture_ne_nil {l v : List Char}
    (h : firstUriCapture l = some v) : v ≠ [] := by
  induction l with
  | nil => simp [firstUriCapture] at h
  | cons c t ih =>
    unfold firstUriCapture at h
    rcases hm : matchUriAt (c :: t) with _ | ⟨w, rem⟩
    · rw [hm] at h
      exact ih h
    · rw [hm] at h
      simp only [Option.some.injEq] at h
      obtain ⟨-, hne, -⟩ := matchUriAt_some hm
      exact h ▸ hne

theorem mk_ne_empty {v : List Char} (h : v ≠ []) : String.mk v ≠ "" := by
  intro hcon
  have := congrArg String.toList hcon
  simp at this
  exact h this

/-! ## C1: `Playlist::parse` reference extraction -/

/-- The references one line contributes, as the specification words it: an
init-map line contributes its first quoted URI when present; a non-empty
non-comment line contributes itself verbatim; every other line contributes
nothing. -/
def claimLineRefs (l : List Char) : List String :=
  if startsWith "#EXT-X-MAP:".toList (trimL l) then
    ((firstUriCapture (trimL l)).map String.mk).toList
  else if !startsWith ['#'] (trimL l) && !(trimL l).isEmpty then
    [String.mk (trimL l)]
  else []

/-- The reference sequence the specification describes: per-line
contributions, in document order. -/
def claimRefs (content : String) : List String :=
  (rustLines content.toList).flatMap claimLineRefs

theorem parse_fold_flatMap (L : List (List Char)) :
    ∀ acc : List String,
      L.foldl
        (fun acc l =>
          if startsWith "#EXT-X-MAP:".toList (trimL l) then
            match firstUriCapture (trimL l) with
            | some v => acc ++ [String.mk v]
            | none => acc
          else if !startsWith ['#'] (trimL l) && !(trimL l).isEmpty then
            acc ++ [String.mk (trimL l)]
          else acc)
        acc = acc ++ L.flatMap claimLineRefs := by
  induction L with
  | nil => intro acc; simp
  | cons l rest ih =>
    intro acc
    rw [List.foldl_cons, List.flatMap_cons, ih]
    have hstep :
        (if startsWith "#EXT-X-MAP:".toList (trimL l) then
          match firstUriCapture (trimL l) with
          | some v => acc ++ [String.mk v]
          | none => acc
        else if !startsWith ['#'] (trimL l) && !(trimL l).isEmpty then
          acc ++ [String.mk (trimL l)]
        else acc) = acc ++ claimLineRefs l := by
      unfold claimLineRefs
      by_cases h1 : startsWith "#EXT-X-MAP:".toList (trimL l)
      · rw [if_pos h1, if_pos h1]
        rcases hc : firstUriCapture (trimL l) with _ | v
        · simp
        · simp
      · rw [if_neg h1, if_neg h1]
        by_cases h2 : (!startsWith ['#'] (trimL l) && !(trimL l).isEmpty) = true
        · rw [if_pos h2, if_pos h2]
        · rw [if_neg h2, if_neg h2]
          simp
    rw [hstep, List.append_assoc]

/-- C1: for every input text and base URL, `Parse` succeeds, and its
references are exactly, in document order: for each trimmed line starting
with `#EXT-X-MAP:`, the first quoted `URI="..."` value when present
(nothing when absent), and every trimmed non-empty line not starting with
`'#'`, appended verbatim; no other line contributes a reference. -/
theorem c1_parse_refs (content : String) (base : Url) :
    Playlist.parse content base =
      Except.ok ⟨content, claimRefs content, base⟩ := by
  unfold Playlist.parse claimRefs
  rw [parse_fold_flatMap]
  rfl

/-! ## C4: `IsMaster` classification -/

/-- C4: `is_master_playlist` is true iff the text contains one of the three
master-indicator substrings anywhere (substring search, so an occurrence
inside a longer tag name such as `#EXT-X-MEDIA-SEQUENCE` also counts); it
is false for text containing none.  Purity is definitional: the function
takes only the text. -/
theorem c4_is_master (content : String) :
    (Playlist.is_master_playlist content = true ↔
      ("#EXT-X-STREAM-INF".toList <:+: content.toList ∨
       "#EXT-X-MEDIA".toList <:+: content.toList ∨
       "#EXT-X-I-FRAME-STREAM-INF".toList <:+: content.toList)) ∧
    Playlist.is_master_playlist "#EXT-X-MEDIA-SEQUENCE:3" = true := by
  constructor
  · unfold Playlist.is_master_playlist
    simp only [Bool.or_eq_true]
    rw [or_assoc]
    exact or_congr containsPat_iff (or_congr containsPat_iff containsPat_iff)
  · decide

/-- Witness: the classification criterion evaluated on a media playlist
with no master tag. -/
theorem c4_is_master_witness :
    Playlist.is_master_playlist "#EXTM3U\nseg1.ts" = false := by
  have h := (c4_is_master "#EXTM3U\nseg1.ts").1
  by_cases hb : Playlist.is_master_playlist "#EXTM3U\nseg1.ts" = true
  · exfalso
    rcases h.mp hb with h1 | h1 | h1 <;> revert h1 <;> decide
  · simpa using hb

/-! ## C5: `ExtractAllPlaylists` pairing and order -/

/-- What one line of a master playlist emits, as the specification words
it, given the immediately following line when there is one: a stream-info
tag emits the next line (trimmed) when that line is neither a tag nor
blank, and nothing when it is a tag, blank, or absent; media and
i-frame-stream tags emit their quoted URI when present. -/
def claimExtractLine (l : List Char) (next? : Option (List Char)) : List String :=
  if startsWith "#EXT-X-STREAM-INF".toList (trimL l) then
    match next? with
    | some nl =>
      if !startsWith ['#'] (trimL nl) && !(trimL nl).isEmpty then
        [String.mk (trimL nl)]
      else []
    | none => []
  else if startsWith "#EXT-X-MEDIA".toList (trimL l) then
    ((firstUriCapture (trimL l)).map String.mk).toList
  else if startsWith "#EXT-X-I-FRAME-STREAM-INF".toList (trimL l) then
    ((firstUriCapture (trimL l)).map String.mk).toList
  else []

/-- Each line paired with the line that follows it (if any). -/
def withNext : List (List Char) → List (List Char × Option (List Char))
  | [] => []
  | l :: rest => (l, rest.head?) :: withNext rest

theorem extractGo_flatMap (L : List (List Char)) :
    Playlist.extractGo L = (withNext L).flatMap fun p => claimExtractLine p.1 p.2 := by
  induction L with
  | nil => rfl
  | cons l rest ih =>
    simp only [Playlist.extractGo]
    rw [show withNext (l :: rest) = (l, rest.head?) :: withNext rest from rfl,
      List.flatMap_cons, ← ih]
    congr 1
    unfold claimExtractLine
    split
    · rfl
    · split
      · rcases hc : firstUriCapture (trimL l) with _ | v <;> simp
      · split
        · rcases hc : firstUriCapture (trimL l) with _ | v <;> simp
        · rfl

/-- C5: references are emitted in document order of the triggering tag,
each stream-info tag emitting the immediately following line exactly when
that line is non-tag and non-blank; concretely, a stream-info tag followed
by `variant.m3u8` yields `["variant.m3u8"]`, while a stream-info tag whose
next line is a tag, blank, or absent (EOF) emits nothing. -/
theorem c5_extract_pairing :
    (∀ content : String,
      Playlist.extract_all_playlists content =
        (withNext (rustLines content.toList)).flatMap fun p => claimExtractLine p.1 p.2) ∧
    Playlist.extract_all_playlists "#EXT-X-STREAM-INF:BANDWIDTH=800000\nvariant.m3u8\n" =
      ["variant.m3u8"] ∧
    Playlist.extract_all_playlists "#EXT-X-STREAM-INF:BANDWIDTH=800000\n#EXT-X-ENDLIST\nvariant.m3u8" = [] ∧
    Playlist.extract_all_playlists "#EXT-X-STREAM-INF:BANDWIDTH=800000\n\nvariant.m3u8" = [] ∧
    Playlist.extract_all_playlists "#EXT-X-STREAM-INF:BANDWIDTH=800000" = [] := by
  refine ⟨fun content => extractGo_flatMap _, by decide, by decide, by decide, by decide⟩

/-! ## C6: the local filename derivation -/

/-- The URL `https://example.com/` (a root-only URL): its parsed path is
`"/"`. -/
def rootOnlyUrl : Url :=
  ⟨"https".toList, some "example.com".toList, none, "/".toList⟩

/-- C6 counterexample: on a root-only URL — which the claim offers as an
example of "no path segments" — the derivation returns the empty string,
not the fallback: `path_segments()` on path `"/"` yields one empty segment,
and `last()` of it is `Some("")`. -/
theorem c6_counterexample :
    Url.parse "https://example.com/" = some rootOnlyUrl ∧
    localFilename rootOnlyUrl "orig.m3u8" = "" ∧
    ("" : String) ≠ "orig.m3u8" := by
  refine ⟨by decide, by decide, by decide⟩

/-- C6 amended: the derivation returns the last path segment whenever the
URL's path begins with `'/'` — for a root-only URL that last segment is the
empty string — and returns the fallback exactly when the path does not
begin with `'/'` (cannot-be-a-base URLs such as `mailto:`). -/
theorem c6_amended (u : Url) (fb : String) :
    localFilename u fb =
      match u.path with
      | '/' :: rest => String.mk ((splitOnChar '/' rest).getLastD [])
      | _ => fb := by
  unfold localFilename Url.pathSegments
  split
  · next rest heq =>
    have hne := splitOnChar_ne_nil '/' rest
    simp [List.getLast?_eq_getLast _ hne, List.getLastD_eq_getLast?]
  · next hne =>
    simp

/-! ## C9: the legacy entry point agrees with the modular code -/

theorem extractGo_legacy_eq (L : List (List Char)) :
    Main.extractGo L = Playlist.extractGo L := by
  induction L with
  | nil => rfl
  | cons l rest ih =>
    unfold Main.extractGo Playlist.extractGo
    rw [ih]

/-- C9: the four pure functions duplicated between src/main.rs and
src/playlist.rs agree on every input. -/
theorem c9_legacy_equiv :
    (∀ (content : String) (base : Url),
      Main.parse_playlist content base = Playlist.parse content base) ∧
    (∀ content : String,
      Main.is_master_playlist content = Playlist.is_master_playlist content) ∧
    (∀ content : String,
      Main.extract_all_playlists content = Playlist.extract_all_playlists content) ∧
    (∀ p : Playlist, Main.rewrite_playlist p = Playlist.rewrite_content p) := by
  refine ⟨fun content base => rfl, fun content => rfl, ?_, fun p => rfl⟩
  intro content
  unfold Main.extract_all_playlists Playlist.extract_all_playlists
  exact extractGo_legacy_eq _

/-! ## C10: an empty quoted URI is never a reference -/

theorem parse_fold_no_empty (L : List (List Char)) :
    ∀ acc : List String, "" ∉ acc →
      "" ∉ L.foldl
        (fun acc l =>
          if startsWith "#EXT-X-MAP:".toList (trimL l) then
            match firstUriCapture (trimL l) with
            | some v => acc ++ [String.mk v]
            | none => acc
          else if !startsWith ['#'] (trimL l) && !(trimL l).isEmpty then
            acc ++ [String.mk (trimL l)]
          else acc)
        acc := by
  induction L with
  | nil => intro acc h; exact h
  | cons l rest ih =>
    intro acc h
    rw [List.foldl_cons]
    apply ih
    by_cases h1 : startsWith "#EXT-X-MAP:".toList (trimL l)
    · rw [if_pos h1]
      rcases hc : firstUriCapture (trimL l) with _ | v
      · exact h
      · intro hmem
        rcases List.mem_append.mp hmem with h2 | h2
        · exact h h2
        · simp only [List.mem_singleton] at h2
          exact mk_ne_empty (firstUriCapture_ne_nil hc) h2.symm
    · rw [if_neg h1]
      by_cases h2 : (!startsWith ['#'] (trimL l) && !(trimL l).isEmpty) = true
      · rw [if_pos h2]
        intro hmem
        rcases List.mem_append.mp hmem with h3 | h3
        · exact h h3
        · simp only [List.mem_singleton] at h3
          have hne : trimL l ≠ [] := by
            simp only [Bool.and_eq_true, Bool.not_eq_eq_eq_not, Bool.not_true] at h2
            intro hcon
            rw [hcon] at h2
            simp at h2
          exact mk_ne_empty hne h3.symm
      · rw [if_neg h2]
        exact h

theorem claimExtractLine_no_empty (l : List Char) (nx : Option (List Char)) :
    "" ∉ claimExtractLine l nx := by
  intro hmem
  unfold claimExtractLine at hmem
  split at hmem
  · split at hmem
    · split at hmem
      · next nl h2 =>
        simp only [List.mem_singleton] at hmem
        have hne : trimL nl ≠ [] := by
          simp only [Bool.and_eq_true, Bool.not_eq_eq_eq_not, Bool.not_true] at h2
          intro hcon
          rw [hcon] at h2
          simp at h2
        exact mk_ne_empty hne hmem.symm
      · simp at hmem
    · simp at hmem
  · split at hmem
    · rcases hc : firstUriCapture (trimL l) with _ | v
      · rw [hc] at hmem; simp at hmem
      · rw [hc] at hmem
        have heq : ("" : String) = String.mk v := by
          simpa using hmem
        exact mk_ne_empty (firstUriCapture_ne_nil hc) heq.symm
    · split at hmem
      · rcases hc : firstUriCapture (trimL l) with _ | v
        · rw [hc] at hmem; simp at hmem
        · rw [hc] at hmem
          have heq : ("" : String) = String.mk v := by
            simpa using hmem
          exact mk_ne_empty (firstUriCapture_ne_nil hc) heq.symm
      · simp at hmem

theorem extractGo_no_empty (L : List (List Char)) : "" ∉ Playlist.extractGo L := by
  rw [extractGo_flatMap]
  intro hmem
  obtain ⟨p, hp, hmem2⟩ := List.mem_flatMap.mp hmem
  exact claimExtractLine_no_empty p.1 p.2 hmem2

/-- A URL for concrete playlists in examples. -/
def demoUrl : Url := ⟨"http".toList, some "h".toList, none, "/x.m3u8".toList⟩

/-- No capture of the rewrite scanner is empty: the pattern requires at
least one character between the quotes. -/
theorem uriCaps_ne_nil :
    ∀ {l v : List Char}, v ∈ uriCaps l → v ≠ []
  | [], v, hv => by simp [uriCaps_nil] at hv
  | a :: t, v, hv => by
    rcases hm : matchUriAt (a :: t) with _ | ⟨w, rem⟩
    · rw [uriCaps_cons_none hm] at hv
      exact uriCaps_ne_nil hv
    · have hrem := matchUriAt_some_length hm
      have hlt : rem.length < (a :: t).length := by
        simp only [List.length_cons] at hrem ⊢
        omega
      rw [uriCaps_cons_some hm] at hv
      rcases List.mem_cons.mp hv with h1 | h1
      · subst h1
        exact (matchUriAt_some hm).2.1
      · exact uriCaps_ne_nil h1
  termination_by l _ => l.length
  decreasing_by
  · simp only [List.length_cons]; omega
  · exact hlt

/-- C10 counterexample: `rewrite_content` does not leave every `URI=""`
occurrence unchanged.  On `#EXT-X-MAP:URI="http://h/a?x=URI=""` the
leftmost match opens at the earlier `URI="` and captures
`http://h/a?x=URI=` — which parses as a URL with last path segment `a` —
so the rewrite produces `#EXT-X-MAP:URI="a""`: the input contains the
exact text `URI=""`, the output no longer does. -/
theorem c10_counterexample :
    containsPat "URI=\"\"".toList
      ("#EXT-X-MAP:URI=\"http://h/a?x=URI=\"\"").toList = true ∧
    Playlist.rewrite_content
      ⟨"#EXT-X-MAP:URI=\"http://h/a?x=URI=\"\"", [], demoUrl⟩ =
        "#EXT-X-MAP:URI=\"a\"\"" ∧
    containsPat "URI=\"\"".toList ("#EXT-X-MAP:URI=\"a\"\"").toList = false := by
  exact ⟨by decide, by decide, by decide⟩

/-- C10 amended: an empty quoted URI attribute is never treated as a
reference — the capture pattern requires at least one character, so no
capture of the rewrite scanner is empty, `parse` never extracts an empty
reference and `extract_all_playlists` never returns one — and a lone
`URI=""` attribute (one no earlier match captures across, as on the line
`#EXT-X-MAP:URI=""` by itself) passes through `rewrite_content`
unchanged.  The rewrite does not preserve every `URI=""` occurrence: an
earlier overlapping match can consume it. -/
theorem c10_amended :
    (∀ l v : List Char, v ∈ uriCaps l → v ≠ []) ∧
    (∀ l v : List Char, firstUriCapture l = some v → v ≠ []) ∧
    (∀ (content : String) (base : Url) (p : Playlist),
      Playlist.parse content base = Except.ok p → "" ∉ p.segments) ∧
    (∀ content : String, "" ∉ Playlist.extract_all_playlists content) ∧
    Playlist.rewrite_content ⟨"#EXT-X-MAP:URI=\"\"", [], demoUrl⟩ = "#EXT-X-MAP:URI=\"\"" := by
  refine ⟨fun l v h => uriCaps_ne_nil h, fun l v h => firstUriCapture_ne_nil h,
    ?_, ?_, by decide⟩
  · intro content base p h
    unfold Playlist.parse at h
    rw [Except.ok.injEq] at h
    rw [← h]
    exact parse_fold_no_empty _ [] (by simp)
  · intro content
    exact extractGo_no_empty _

/-- Witness for C10: the conjuncts with hypotheses discharged at concrete
inputs. -/
theorem c10_amended_witness :
    (String.toList "x" ≠ []) ∧ ("" ∉ ["init.mp4"]) := by
  constructor
  · exact c10_amended.1 (String.toList "URI=\"x\"") (String.toList "x") (by decide)
  · exact c10_amended.2.2.1 "#EXT-X-MAP:URI=\"init.mp4\"" demoUrl
      ⟨"#EXT-X-MAP:URI=\"init.mp4\"", ["init.mp4"], demoUrl⟩ (by rfl)

/-! ## Character tracking through the rewrite scanner -/

theorem mem_uriCaps_chars :
    ∀ {l v : List Char}, v ∈ uriCaps l → ∀ c ∈ v, c ∈ l
  | [], v, hv => by simp [uriCaps_nil] at hv
  | a :: t, v, hv => by
    intro c hc
    rcases hm : matchUriAt (a :: t) with _ | ⟨w, rem⟩
    · rw [uriCaps_cons_none hm] at hv
      exact List.mem_cons_of_mem a (mem_uriCaps_chars hv c hc)
    · have hrem := matchUriAt_some_length hm
      have hlt : rem.length < (a :: t).length := by
        simp only [List.length_cons] at hrem ⊢
        omega
      rw [uriCaps_cons_some hm] at hv
      obtain ⟨hshape, -, -⟩ := matchUriAt_some hm
      rcases List.mem_cons.mp hv with h1 | h1
      · subst h1
        rw [hshape]
        simp [hc]
      · have := mem_uriCaps_chars h1 c hc
        rw [hshape]
        simp [this]
  termination_by l _ _ => l.length
  decreasing_by
  · simp only [List.length_cons]; omega
  · exact hlt

theorem mem_uriReplaceAll {f : List Char → List Char} :
    ∀ {l : List Char} {c : Char}, c ∈ uriReplaceAll f l →
      c ∈ l ∨ ∃ v ∈ uriCaps l, c ∈ f v
  | [], c, hc => by simp [uriReplaceAll_nil] at hc
  | a :: t, c, hc => by
    rcases hm : matchUriAt (a :: t) with _ | ⟨w, rem⟩
    · rw [uriReplaceAll_cons_none f hm] at hc
      rcases List.mem_cons.mp hc with h1 | h1
      · exact Or.inl (h1 ▸ List.mem_cons_self a t)
      · rcases mem_uriReplaceAll h1 with h2 | ⟨v, hv, hcv⟩
        · exact Or.inl (List.mem_cons_of_mem a h2)
        · exact Or.inr ⟨v, by rw [uriCaps_cons_none hm]; exact hv, hcv⟩
    · have hrem := matchUriAt_some_length hm
      have hlt : rem.length < (a :: t).length := by
        simp only [List.length_cons] at hrem ⊢
        omega
      rw [uriReplaceAll_cons_some f hm] at hc
      obtain ⟨hshape, -, -⟩ := matchUriAt_some hm
      rcases List.mem_append.mp hc with h1 | h1
      · exact Or.inr ⟨w, by rw [uriCaps_cons_some hm]; simp, h1⟩
      · rcases mem_uriReplaceAll h1 with h2 | ⟨v, hv, hcv⟩
        · refine Or.inl ?_
          rw [hshape]
          simp [h2]
        · exact Or.inr ⟨v, by rw [uriCaps_cons_some hm]; simp [hv], hcv⟩
  termination_by l _ _ => l.length
  decreasing_by
  · simp only [List.length_cons]; omega
  · exact hlt

theorem uriReplaceAll_ne_nil {f : List Char → List Char}
    (hf : ∀ v, f v ≠ []) :
    ∀ {l : List Char}, l ≠ [] → uriReplaceAll f l ≠ []
  | [], h => absurd rfl h
  | a :: t, _ => by
    rcases hm : matchUriAt (a :: t) with _ | ⟨w, rem⟩
    · rw [uriReplaceAll_cons_none f hm]
      simp
    · rw [uriReplaceAll_cons_some f hm]
      intro hcon
      exact hf w (List.append_eq_nil.mp hcon).1

/-- The regex scanner applied in sequence: identity when every capture is
left untouched by the replacement. -/
theorem uriReplaceAll_id {f : List Char → List Char} :
    ∀ {l : List Char}, (∀ v ∈ uriCaps l, f v = uriPat ++ v ++ ['"']) →
      uriReplaceAll f l = l
  | [], _ => rfl
  | a :: t, h => by
    rcases hm : matchUriAt (a :: t) with _ | ⟨w, rem⟩
    · rw [uriReplaceAll_cons_none f hm,
        uriReplaceAll_id (by rw [uriCaps_cons_none hm] at h; exact h)]
    · have hrem := matchUriAt_some_length hm
      have hlt : rem.length < (a :: t).length := by
        simp only [List.length_cons] at hrem ⊢
        omega
      rw [uriReplaceAll_cons_some f hm]
      rw [uriCaps_cons_some hm] at h
      obtain ⟨hshape, -, -⟩ := matchUriAt_some hm
      rw [uriReplaceAll_id fun v hv => h v (by simp [hv]), h w (by simp), hshape]
      simp
  termination_by l _ => l.length
  decreasing_by
  · simp only [List.length_cons]; omega
  · exact hlt

/-- For a capture that does not parse as a URL, the rewrite replacement is
the full original match. -/
theorem uriRewriteReplacement_id {v : List Char}
    (h : Url.parse (String.mk v) = none) :
    Playlist.uriRewriteReplacement v = uriPat ++ v ++ ['"'] := by
  unfold Playlist.uriRewriteReplacement
  rw [h]

theorem mem_of_getLast?_eq {α : Type} {l : List α} {a : α}
    (h : l.getLast? = some a) : a ∈ l := by
  obtain ⟨hne, heq⟩ :=
    List.mem_getLast?_eq_getLast (show a ∈ l.getLast? by rw [h]; rfl)
  exact heq ▸ List.getLast_mem hne

theorem pathSegments_last_chars {u : Url} {seg : List Char}
    (h : u.pathSegments.bind List.getLast? = some seg) : ∀ c ∈ seg, c ∈ u.path := by
  intro c hc
  unfold Url.pathSegments at h
  split at h
  · next rest heq =>
    simp only [Option.some_bind] at h
    have hmem2 : seg ∈ splitOnChar '/' rest := mem_of_getLast?_eq h
    rw [heq]
    exact List.mem_cons_of_mem _ (mem_splitOnChar hmem2 c hc)
  · simp at h

theorem uriRewriteReplacement_no_nl {v : List Char} (h : '\n' ∉ v) :
    '\n' ∉ Playlist.uriRewriteReplacement v := by
  intro hmem
  unfold Playlist.uriRewriteReplacement at hmem
  rcases hp : Url.parse (String.mk v) with _ | url
  · rw [hp] at hmem
    rcases List.mem_append.mp hmem with h1 | h1
    · rcases List.mem_append.mp h1 with h2 | h2
      · simp [uriPat] at h2
      · exact h h2
    · simp at h1
  · rw [hp] at hmem
    rcases List.mem_append.mp hmem with h1 | h1
    · rcases List.mem_append.mp h1 with h2 | h2
      · simp [uriPat] at h2
      · -- the filename: either a path segment or the original capture
        rcases hseg : url.pathSegments.bind List.getLast? with _ | seg
        · rw [hseg] at h2
          exact h h2
        · rw [hseg] at h2
          simp only [Option.getD_some] at h2
          exact Url.parse_path_no_nl hp (pathSegments_last_chars hseg _ h2)
    · simp at h1

theorem replaceAll_no_nl {l : List Char} (h : '\n' ∉ l) :
    '\n' ∉ uriReplaceAll Playlist.uriRewriteReplacement l := by
  intro hmem
  rcases mem_uriReplaceAll hmem with h1 | ⟨v, hv, hcv⟩
  · exact h h1
  · have hnv : '\n' ∉ v := fun hcon => h (mem_uriCaps_chars hv '\n' hcon)
    exact uriRewriteReplacement_no_nl hnv hcv

/-! ## Per-line structure of `rewrite_content` -/

theorem uriRewriteReplacement_ne_nil (v : List Char) :
    Playlist.uriRewriteReplacement v ≠ [] := by
  unfold Playlist.uriRewriteReplacement
  rcases Url.parse (String.mk v) with _ | url <;> simp [uriPat]

theorem noOpen_of_trim {xs : List Char} (h : noOpen (trimL xs) = true) :
    noOpen xs = true := by
  obtain ⟨pre, post, hpre, hpost, hdec⟩ := trimL_decomp xs
  have h1 := scan_append Playlist.uriRewriteReplacement (trimL xs) post h (wsHead_of_all hpost)
  have h2 := scan_ws_all Playlist.uriRewriteReplacement hpost
  have h3 := scan_ws_prepend Playlist.uriRewriteReplacement hpre (trimL xs ++ post)
  conv_lhs => rw [hdec, List.append_assoc]
  rw [h3.2.2, h1.2.2, h2.2.2]

theorem replaceAll_trim_decomp (f : List Char → List Char) {xs : List Char}
    (h : noOpen (trimL xs) = true) :
    ∃ pre post, (∀ c ∈ pre, isWs c = true) ∧ (∀ c ∈ post, isWs c = true) ∧
      xs = pre ++ trimL xs ++ post ∧
      uriReplaceAll f xs = pre ++ uriReplaceAll f (trimL xs) ++ post := by
  obtain ⟨pre, post, hpre, hpost, hdec⟩ := trimL_decomp xs
  refine ⟨pre, post, hpre, hpost, hdec, ?_⟩
  conv_lhs => rw [hdec, List.append_assoc]
  rw [(scan_ws_prepend f hpre _).1,
    (scan_append f (trimL xs) post h (wsHead_of_all hpost)).1,
    (scan_ws_all f hpost).1, List.append_assoc]

theorem trim_replaceAll_comm (f : List Char → List Char) {xs : List Char}
    (h : noOpen (trimL xs) = true) :
    trimL (uriReplaceAll f xs) = trimL (uriReplaceAll f (trimL xs)) := by
  obtain ⟨pre, post, hpre, hpost, -, heq⟩ := replaceAll_trim_decomp f h
  rw [heq, List.append_assoc, trimL_prepend_ws hpre, trimL_append_ws hpost]

theorem nl_split {cs : List Char} (h : '\n' ∈ cs) :
    ∃ xs ys, cs = xs ++ '\n' :: ys ∧ '\n' ∉ xs := by
  refine ⟨cs.takeWhile (fun c => c != '\n'), (cs.dropWhile (fun c => c != '\n')).tail, ?_, ?_⟩
  · rcases hd : cs.dropWhile (fun c => c != '\n') with _ | ⟨d, ds⟩
    · exfalso
      have := List.dropWhile_eq_nil_iff.mp hd '\n' h
      simp at this
    · have hdn : d = '\n' := by
        have h2 := List.head?_dropWhile_not (fun c => c != '\n') cs
        rw [hd] at h2
        simp only [List.head?_cons] at h2
        simpa using h2
      conv_lhs => rw [← List.takeWhile_append_dropWhile (p := fun c => c != '\n') (l := cs)]
      rw [hd, hdn]
      rfl
  · intro hcon
    have := List.mem_takeWhile_imp hcon
    simp at this

theorem stripCrEnd_subset {xs : List Char} : ∀ c ∈ stripCrEnd xs, c ∈ xs := by
  intro c hc
  unfold stripCrEnd at hc
  by_cases h : xs.getLast? = some '\r'
  · rw [if_pos h] at hc
    exact (List.dropLast_sublist xs).subset hc
  · rw [if_neg h] at hc
    exact hc

theorem rustLines_mem_no_nl :
    ∀ (cs : List Char), ∀ l ∈ rustLines cs, '\n' ∉ l := by
  intro cs
  by_cases h : '\n' ∈ cs
  · obtain ⟨xs, ys, hdec, hxs⟩ := nl_split h
    have hlt : ys.length < cs.length := by
      rw [hdec]
      simp only [List.length_append, List.length_cons]
      omega
    rw [hdec, rustLines_append_nl ys hxs]
    intro l hl
    rcases List.mem_cons.mp hl with h1 | h1
    · subst h1
      intro hcon
      exact hxs (stripCrEnd_subset '\n' hcon)
    · exact rustLines_mem_no_nl ys l h1
  · cases hcs : cs with
    | nil => intro l hl; simp [rustLines_nil] at hl
    | cons a t =>
      rw [← hcs, rustLines_no_nl (by rw [hcs]; simp) h]
      intro l hl
      rcases List.mem_singleton.mp hl with h1
      exact h1 ▸ h
  termination_by cs => cs.length

/-- The attribute pass restricted to one (trimmed) line. -/
def attrLine (l : List Char) : List Char :=
  uriReplaceAll Playlist.uriRewriteReplacement (trimL l)

/-- The complete per-line effect of `rewrite_content` when no quoted URI
value spans a line break: attribute rewriting within the line, then the
trim-and-reduce line pass. -/
def lineRewrite (l : List Char) : List Char :=
  Playlist.rewriteLinePass (attrLine l)

theorem rewriteLinePass_congr {a b : List Char} (h : trimL a = trimL b) :
    Playlist.rewriteLinePass a = Playlist.rewriteLinePass b := by
  unfold Playlist.rewriteLinePass
  rw [h]

/-- Distribution of the rewrite over lines: when every line's quoted
attributes close within the line, the rewritten lines are the per-line
rewrites of the input lines, in order. -/
theorem rewrite_lines_map :
    ∀ (cs : List Char), (∀ l ∈ rustLines cs, noOpen (trimL l) = true) →
      (rustLines (uriReplaceAll Playlist.uriRewriteReplacement cs)).map
        Playlist.rewriteLinePass = (rustLines cs).map lineRewrite := by
  intro cs H
  by_cases hnl : '\n' ∈ cs
  · obtain ⟨xs, ys, hdec, hxs⟩ := nl_split hnl
    have hlt : ys.length < cs.length := by
      rw [hdec]
      simp only [List.length_append, List.length_cons]
      omega
    subst hdec
    have Hhead : noOpen (trimL (stripCrEnd xs)) = true := by
      apply H
      rw [rustLines_append_nl ys hxs]
      simp
    have Hxs : noOpen (trimL xs) = true := by
      rw [← trimL_stripCrEnd]
      exact Hhead
    have Htail : ∀ l ∈ rustLines ys, noOpen (trimL l) = true := by
      intro l hl
      apply H
      rw [rustLines_append_nl ys hxs]
      simp [hl]
    have hsplit := (scan_append Playlist.uriRewriteReplacement xs ('\n' :: ys)
      (noOpen_of_trim Hxs) (by intro c hc; simp at hc; subst hc; rfl)).1
    have hpre := (@scan_ws_prepend Playlist.uriRewriteReplacement
      ['\n'] (by intro c hc; simp at hc; subst hc; rfl) ys).1
    simp only [List.singleton_append] at hpre
    have hxs2 : '\n' ∉ uriReplaceAll Playlist.uriRewriteReplacement xs :=
      replaceAll_no_nl hxs
    rw [hsplit, hpre, rustLines_append_nl _ hxs2, rustLines_append_nl _ hxs]
    rw [List.map_cons, List.map_cons]
    congr 1
    · -- the head line
      apply rewriteLinePass_congr
      rw [trimL_stripCrEnd, trim_replaceAll_comm _ Hxs]
      show _ = trimL (attrLine (stripCrEnd xs))
      unfold attrLine
      rw [trimL_stripCrEnd]
    · exact rewrite_lines_map ys Htail
  · rcases hcs : cs with _ | ⟨a, t⟩
    · rfl
    · rw [← hcs]
      have hne : cs ≠ [] := by rw [hcs]; simp
      have Hcs : noOpen (trimL cs) = true := by
        apply H
        rw [rustLines_no_nl hne hnl]
        simp
      have hrne : uriReplaceAll Playlist.uriRewriteReplacement cs ≠ [] :=
        uriReplaceAll_ne_nil uriRewriteReplacement_ne_nil hne
      have hrnl : '\n' ∉ uriReplaceAll Playlist.uriRewriteReplacement cs :=
        replaceAll_no_nl hnl
      rw [rustLines_no_nl hrne hrnl, rustLines_no_nl hne hnl]
      rw [List.map_singleton, List.map_singleton]
      congr 1
      exact rewriteLinePass_congr (trim_replaceAll_comm _ Hcs)
  termination_by cs => cs.length

/-! ## C3: frame behaviour of `rewrite_content` -/

/-- No line of the content carries a quoted attribute left unclosed within
the line (a `URI="` with no later `'"'` on the same line). -/
def linesClosed (content : String) : Bool :=
  (rustLines content.toList).all fun l => noOpen (trimL l)

/-- C3 counterexample: a comment line with trailing whitespace and a CRLF
ending does not pass through unmodified — the rewrite trims every line and
drops the final line break. -/
theorem c3_counterexample :
    Playlist.rewrite_content ⟨"#EXTM3U \r\n", [], demoUrl⟩ = "#EXTM3U" ∧
    Playlist.rewrite_content ⟨"#EXTM3U \r\n", [], demoUrl⟩ ≠ "#EXTM3U \r\n" := by
  exact ⟨by decide, by decide⟩

/-- C3 amended: provided no quoted URI value spans a line break, the output
is the per-line rewrites of the input lines, in input order, joined by a
single `'\n'` regardless of the input's line-ending style and with no
trailing newline; lines other than rewritten references — blank lines, and
comment lines without a quoted URI — pass through with leading and trailing
whitespace trimmed but otherwise unmodified. -/
theorem c3_amended (content : String) (segs : List String) (u : Url)
    (h : linesClosed content = true) :
    Playlist.rewrite_content ⟨content, segs, u⟩ =
      String.mk (joinNl ((rustLines content.toList).map lineRewrite)) ∧
    ∀ l ∈ rustLines content.toList,
      (trimL l = [] ∨ (startsWith ['#'] (trimL l) = true ∧ uriCaps (trimL l) = [])) →
      lineRewrite l = trimL l := by
  constructor
  · unfold Playlist.rewrite_content Playlist.rewriteChars
    have hclosed : ∀ l ∈ rustLines content.toList, noOpen (trimL l) = true :=
      List.all_eq_true.mp h
    rw [rewrite_lines_map _ hclosed]
  · intro l hl hcond
    unfold lineRewrite attrLine
    rcases hcond with hblank | ⟨hhash, hcaps⟩
    · rw [hblank, uriReplaceAll_nil]
      decide
    · have hid : uriReplaceAll Playlist.uriRewriteReplacement (trimL l) = trimL l :=
        uriReplaceAll_id (by rw [hcaps]; intro v hv; simp at hv)
      rw [hid]
      unfold Playlist.rewriteLinePass
      rw [trimL_idem, if_neg (by rw [hhash]; simp)]

/-- Witness for C3: the amended characterization at a concrete two-line
playlist with an absolute segment URL. -/
theorem c3_amended_witness :
    Playlist.rewrite_content ⟨"#EXTM3U\nhttp://h/a/seg1.ts", [], demoUrl⟩ =
      String.mk (joinNl ((rustLines ("#EXTM3U\nhttp://h/a/seg1.ts").toList).map lineRewrite)) :=
  (c3_amended "#EXTM3U\nhttp://h/a/seg1.ts" [] demoUrl (by decide)).1

/-! ## C2: idempotence of `rewrite_content` -/

/-- A bare filename with no directory component: non-empty, not a comment
opener, and free of path separators (`'/'`), scheme separators (`':'`),
quotes and whitespace — the characters that would make the text parse as a
URL or interact with the attribute pattern. -/
def bareFilename (v : List Char) : Bool :=
  !v.isEmpty && !decide (v.head? = some '#') &&
    v.all fun c => !(c = '/' || c = ':' || c = '"') && !isWs c

/-- Per-line precondition of the idempotence claim: quoted attributes are
closed within their line, every quoted URI value is a bare filename, and
the line itself is blank, a comment, or a bare filename. -/
def lineOKC2 (l : List Char) : Bool :=
  noOpen (trimL l) && (uriCaps (trimL l)).all bareFilename &&
    ((trimL l).isEmpty || startsWith ['#'] (trimL l) || bareFilename (trimL l))

/-- All references of the content are bare filenames. -/
def contentOK (content : String) : Bool :=
  (rustLines content.toList).all lineOKC2

/-- The content's final line, if any, is not blank. -/
def lastLineOK (content : String) : Bool :=
  match (rustLines content.toList).getLast? with
  | some l => !(trimL l).isEmpty
  | none => true

theorem bareFilename_parse_none {v : List Char} (h : bareFilename v = true) :
    Url.parse (String.mk v) = none := by
  apply Url.parse_none_of_no_colon
  intro hmem
  unfold bareFilename at h
  simp only [Bool.and_eq_true] at h
  have := List.all_eq_true.mp h.2 ':' (by simpa using hmem)
  simp at this

theorem rewrite_of_lineOK {cs : List Char} (h : (rustLines cs).all lineOKC2 = true) :
    Playlist.rewriteChars cs = joinNl ((rustLines cs).map trimL) := by
  have hall := List.all_eq_true.mp h
  have hclosed : ∀ l ∈ rustLines cs, noOpen (trimL l) = true := by
    intro l hl
    have := hall l hl
    unfold lineOKC2 at this
    simp only [Bool.and_eq_true] at this
    exact this.1.1
  unfold Playlist.rewriteChars
  rw [rewrite_lines_map _ hclosed]
  congr 1
  apply List.map_congr_left
  intro l hl
  have hok := hall l hl
  unfold lineOKC2 at hok
  simp only [Bool.and_eq_true, Bool.or_eq_true] at hok
  obtain ⟨⟨hno, hcaps⟩, hbranch⟩ := hok
  unfold lineRewrite attrLine
  have hid : uriReplaceAll Playlist.uriRewriteReplacement (trimL l) = trimL l :=
    uriReplaceAll_id fun v hv =>
      uriRewriteReplacement_id
        (bareFilename_parse_none (List.all_eq_true.mp hcaps v hv))
  rw [hid]
  unfold Playlist.rewriteLinePass
  rw [trimL_idem]
  rcases hbranch with (hb | hb) | hb
  · rw [if_neg (by rw [hb]; simp)]
  · rw [if_neg (by rw [hb]; simp)]
  · by_cases hcond : (!startsWith ['#'] (trimL l) && !(trimL l).isEmpty) = true
    · rw [if_pos hcond]
      unfold Playlist.bareLineRewrite
      rw [bareFilename_parse_none hb]
    · rw [if_neg hcond]

theorem lineOKC2_trim {l : List Char} (h : lineOKC2 l = true) :
    lineOKC2 (trimL l) = true := by
  unfold lineOKC2 at h ⊢
  rw [trimL_idem]
  exact h

/-- C2 counterexample: a playlist whose single reference `seg1.ts` is a
bare filename, but whose content ends in a blank line.  The first rewrite
drops the blank line but keeps a trailing newline; the second rewrite drops
that newline as well, so the second application is not a no-op. -/
theorem c2_counterexample :
    Playlist.parse "#EXTM3U\nseg1.ts\n\n" demoUrl =
      Except.ok ⟨"#EXTM3U\nseg1.ts\n\n", ["seg1.ts"], demoUrl⟩ ∧
    bareFilename "seg1.ts".toList = true ∧
    Playlist.rewrite_content ⟨"#EXTM3U\nseg1.ts\n\n", ["seg1.ts"], demoUrl⟩ =
      "#EXTM3U\nseg1.ts\n" ∧
    Playlist.rewrite_content
        ⟨Playlist.rewrite_content ⟨"#EXTM3U\nseg1.ts\n\n", ["seg1.ts"], demoUrl⟩,
          ["seg1.ts"], demoUrl⟩ ≠
      Playlist.rewrite_content ⟨"#EXTM3U\nseg1.ts\n\n", ["seg1.ts"], demoUrl⟩ := by
  exact ⟨by rfl, by decide, by decide, by decide⟩

/-- C2 amended: rewriting is idempotent for content whose references
(quoted URI values and bare lines) are bare filenames, provided the
content's final line is not blank — a trailing blank line is dropped by the
first rewrite, which shortens the text again on the second application. -/
theorem c2_amended (content : String) (segs segs2 : List String) (u : Url)
    (h1 : contentOK content = true) (h2 : lastLineOK content = true) :
    Playlist.rewrite_content
        ⟨Playlist.rewrite_content ⟨content, segs, u⟩, segs2, u⟩ =
      Playlist.rewrite_content ⟨content, segs, u⟩ := by
  unfold Playlist.rewrite_content
  have hmk : ∀ x : List Char, (String.mk x).toList = x := fun x => rfl
  rw [hmk]
  have hfirst : Playlist.rewriteChars content.toList =
      joinNl ((rustLines content.toList).map trimL) :=
    rewrite_of_lineOK h1
  rw [hfirst]
  -- the lines of the normalized text are the trimmed original lines
  have hround : rustLines (joinNl ((rustLines content.toList).map trimL)) =
      (rustLines content.toList).map trimL := by
    apply rustLines_joinNl
    · intro x hx
      obtain ⟨l, hl, rfl⟩ := List.mem_map.mp hx
      exact ⟨trimL_no_nl (rustLines_mem_no_nl content.toList l hl), stripCrEnd_trimL l⟩
    · unfold lastLineOK at h2
      rw [List.getLast?_map]
      rcases hg : (rustLines content.toList).getLast? with _ | l
      · simp
      · rw [hg] at h2
        intro hcon
        simp at hcon
        simp [hcon] at h2
  have hsecond : Playlist.rewriteChars (joinNl ((rustLines content.toList).map trimL)) =
      joinNl ((rustLines (joinNl ((rustLines content.toList).map trimL))).map trimL) := by
    apply rewrite_of_lineOK
    rw [hround]
    rw [List.all_map]
    apply List.all_eq_true.mpr
    intro l hl
    exact lineOKC2_trim (List.all_eq_true.mp h1 l hl)
  rw [hsecond, hround, List.map_map]
  congr 1
  congr 1
  apply List.map_congr_left
  intro l hl
  exact trimL_idem l

/-- Witness for C2: idempotence at a concrete playlist with bare
references. -/
theorem c2_amended_witness :
    Playlist.rewrite_content
        ⟨Playlist.rewrite_content
          ⟨"#EXTM3U\n#EXT-X-MAP:URI=\"init.mp4\"\nseg1.ts", [], demoUrl⟩,
          [], demoUrl⟩ =
      Playlist.rewrite_content
        ⟨"#EXTM3U\n#EXT-X-MAP:URI=\"init.mp4\"\nseg1.ts", [], demoUrl⟩ :=
  c2_amended "#EXTM3U\n#EXT-X-MAP:URI=\"init.mp4\"\nseg1.ts" [] [] demoUrl
    (by decide) (by decide)

/-! ## C7: which playlist writes are rewritten -/

theorem except_bind_ok {α β : Type} (a : α) (f : α → Except String β) :
    (Except.ok a : Except String α) >>= f = f a := rfl

theorem except_bind_err {α β : Type} (e : String) (f : α → Except String β) :
    (Except.error e : Except String α) >>= f = Except.error e := rfl

theorem parse_ok_content {c : String} {u : Url} {p : Playlist}
    (h : Playlist.parse c u = Except.ok p) : p.content = c := by
  unfold Playlist.parse at h
  injection h with h'
  subst h'
  rfl

theorem exceptMapM_mem {α β : Type} (f : α → Except String β) :
    ∀ (xs : List α) (ys : List β), exceptMapM f xs = Except.ok ys →
      ∀ y ∈ ys, ∃ x, x ∈ xs ∧ f x = Except.ok y := by
  intro xs
  induction xs with
  | nil =>
    intro ys h y hy
    unfold exceptMapM at h
    injection h with h'
    subst h'
    simp at hy
  | cons x xs ih =>
    intro ys h y hy
    unfold exceptMapM at h
    rcases hfx : f x with e | b
    · rw [hfx, except_bind_err] at h; exact Except.noConfusion h
    · rw [hfx, except_bind_ok] at h
      rcases hrest : exceptMapM f xs with e | bs
      · rw [hrest, except_bind_err] at h; exact Except.noConfusion h
      · rw [hrest, except_bind_ok] at h
        injection h with h'
        subst h'
        rcases List.mem_cons.mp hy with rfl | hy'
        · exact ⟨x, List.mem_cons_self x xs, hfx⟩
        · obtain ⟨x', hx', hfx'⟩ := ih bs hrest y hy'
          exact ⟨x', List.mem_cons_of_mem x hx', hfx'⟩

theorem download_segment_src {env : FetchEnv} {u : Url} {fn : String} {w : HWrite}
    (h : download_segment env u fn = Except.ok w) : w.src = none ∧ w.path = fn := by
  unfold download_segment at h
  rcases hb : env.fetchBytes u with e | bytes
  · rw [hb, except_bind_err] at h; exact Except.noConfusion h
  · rw [hb, except_bind_ok] at h
    rcases hw : env.writeRes fn with e | uu
    · rw [hw, except_bind_err] at h; exact Except.noConfusion h
    · rw [hw, except_bind_ok] at h
      injection h with h'
      subst h'
      exact ⟨rfl, rfl⟩

theorem process_playlist_writes {env : FetchEnv} {u : Url} {fn : String} {l : List HWrite}
    (h : process_playlist env u fn = Except.ok l) :
    ∀ w ∈ l, ∀ s, w.src = some s →
      w.data = String.mk (Playlist.rewriteChars s.toList) := by
  unfold process_playlist at h
  rcases hft : env.fetchText u with e | content
  · rw [hft, except_bind_err] at h; exact Except.noConfusion h
  rw [hft] at h
  simp only [except_bind_ok] at h
  rcases hp : Playlist.parse content u with e | p
  · rw [hp, except_bind_err] at h; exact Except.noConfusion h
  rw [hp] at h
  simp only [except_bind_ok] at h
  have hpc : p.content = content := parse_ok_content hp
  split at h
  · rcases ht : segmentTargets p with e | targets
    · rw [ht, except_bind_err] at h; exact Except.noConfusion h
    rw [ht] at h
    simp only [except_bind_ok] at h
    rcases hd : exceptMapM (fun t => download_segment env t.1 t.2) targets with e | dls
    · rw [hd, except_bind_err] at h; exact Except.noConfusion h
    rw [hd] at h
    simp only [except_bind_ok] at h
    rcases hwr : env.writeRes fn with e | uu
    · rw [hwr, except_bind_err] at h; exact Except.noConfusion h
    rw [hwr] at h
    simp only [except_bind_ok] at h
    injection h with h'
    subst h'
    intro w hw s hs
    rcases List.mem_append.mp hw with h1 | h2
    · obtain ⟨t, htm, hdw⟩ := exceptMapM_mem _ targets dls hd w h1
      have hsn := (download_segment_src hdw).1
      rw [hsn] at hs
      exact Option.noConfusion hs
    · have hw2 := List.mem_singleton.mp h2
      subst hw2
      have hs2 : some content = some s := hs
      injection hs2 with hs3
      subst hs3
      show Playlist.rewrite_content p = String.mk (Playlist.rewriteChars content.toList)
      unfold Playlist.rewrite_content
      rw [hpc]
  · rcases hwr : env.writeRes fn with e | uu
    · rw [hwr, except_bind_err] at h; exact Except.noConfusion h
    rw [hwr] at h
    simp only [except_bind_ok] at h
    injection h with h'
    subst h'
    intro w hw s hs
    have hw2 := List.mem_singleton.mp (by simpa using hw)
    subst hw2
    have hs2 : some content = some s := hs
    injection hs2 with hs3
    subst hs3
    show Playlist.rewrite_content p = String.mk (Playlist.rewriteChars content.toList)
    unfold Playlist.rewrite_content
    rw [hpc]

theorem copyLoop_writes {env : FetchEnv} {base : Url} :
    ∀ (refs : List String) (l : List HWrite), copyLoop env base refs = Except.ok l →
      ∀ w ∈ l, ∀ s, w.src = some s →
        w.data = String.mk (Playlist.rewriteChars s.toList) := by
  intro refs
  induction refs with
  | nil =>
    intro l h w hw
    unfold copyLoop at h
    injection h with h'
    subst h'
    simp at hw
  | cons r rest ih =>
    intro l h w hwmem s hs
    unfold copyLoop at h
    rcases hr : resolve_url r base with e | u
    · rw [hr, except_bind_err] at h; exact Except.noConfusion h
    rw [hr] at h
    simp only [except_bind_ok] at h
    rcases hp : process_playlist env u (localFilename u r) with e | pw
    · rw [hp, except_bind_err] at h; exact Except.noConfusion h
    rw [hp] at h
    simp only [except_bind_ok] at h
    rcases hrest : copyLoop env base rest with e | rws
    · rw [hrest, except_bind_err] at h; exact Except.noConfusion h
    rw [hrest] at h
    simp only [except_bind_ok] at h
    injection h with h'
    subst h'
    rcases List.mem_append.mp hwmem with h1 | h2
    · exact process_playlist_writes hp w h1 s hs
    · exact ih rws hrest w h2 s hs

/-- The base URL, playlist texts, resolved URLs and oracle of the C7
scenario: a master playlist on host `h` referring to one variant stream
`low.m3u8`, which holds a single absolute segment reference. -/
def base7 : Url := ⟨"http".toList, some "h".toList, none, "/x/master.m3u8".toList⟩

def master7 : String := "#EXT-X-STREAM-INF:BANDWIDTH=1\nhttp://h/a/low.m3u8\n"

def media7 : String := "#EXTM3U\nhttp://h/a/seg1.ts\n"

def lowUrl7 : Url := ⟨"http".toList, some "h".toList, none, "/a/low.m3u8".toList⟩

def segUrl7 : Url := ⟨"http".toList, some "h".toList, none, "/a/seg1.ts".toList⟩

def env7 : FetchEnv :=
  ⟨fun u => if u = base7 then Except.ok master7
            else if u = lowUrl7 then Except.ok media7
            else Except.error "404",
   fun u => if u = segUrl7 then Except.ok "SEGDATA" else Except.error "404",
   fun _ => Except.ok ()⟩

/-- The write log `copy_hls` produces in the C7 scenario. -/
def ws7 : List HWrite :=
  [⟨"master.m3u8", master7, some master7⟩,
   ⟨"seg1.ts", "SEGDATA", none⟩,
   ⟨"low.m3u8", "#EXTM3U\nseg1.ts", some media7⟩]

/-- C7 counterexample: on a master-playlist run, the top-level playlist
write is the fetched master text verbatim — its variant reference
`http://h/a/low.m3u8` is not replaced by the bare filename `low.m3u8` —
so not every playlist write equals the reference-rewritten source text. -/
theorem c7_counterexample :
    copy_hls env7 base7 = Except.ok ws7 ∧
    ws7.head? = some ⟨"master.m3u8", master7, some master7⟩ ∧
    master7 ≠ String.mk (Playlist.rewriteChars master7.toList) ∧
    ¬ ∀ w ∈ ws7, ∀ s, w.src = some s →
        w.data = String.mk (Playlist.rewriteChars s.toList) := by
  refine ⟨by rfl, by rfl, by decide, ?_⟩
  intro hall
  have h1 := hall ⟨"master.m3u8", master7, some master7⟩ (by decide) master7 rfl
  exact absurd h1 (by decide)

/-- C7 amended: in every successful run the first write stores the fetched
top-level text verbatim under its local filename, and every later playlist
write (the ones carrying a fetched source text) stores exactly the
reference-rewritten source text. -/
theorem c7_amended (env : FetchEnv) (base_url : Url) (ws : List HWrite)
    (h : copy_hls env base_url = Except.ok ws) :
    ∃ master_content,
      env.fetchText base_url = Except.ok master_content ∧
      ws.head? = some ⟨localFilename base_url "playlist.m3u8", master_content,
        some master_content⟩ ∧
      ∀ w ∈ ws.tail, ∀ s, w.src = some s →
        w.data = String.mk (Playlist.rewriteChars s.toList) := by
  unfold copy_hls at h
  rcases hft : env.fetchText base_url with e | master
  · rw [hft, except_bind_err] at h; exact Except.noConfusion h
  rw [hft] at h
  simp only [except_bind_ok] at h
  rcases hwr : env.writeRes (localFilename base_url "playlist.m3u8") with e | uu
  · rw [hwr, except_bind_err] at h; exact Except.noConfusion h
  rw [hwr] at h
  simp only [except_bind_ok] at h
  refine ⟨master, rfl, ?_⟩
  split at h
  · rcases hcl : copyLoop env base_url (Playlist.extract_all_playlists master) with e | l
    · rw [hcl, except_bind_err] at h; exact Except.noConfusion h
    rw [hcl] at h
    simp only [except_bind_ok] at h
    injection h with h'
    subst h'
    exact ⟨rfl, fun w hw s hs => copyLoop_writes _ l hcl w hw s hs⟩
  · rcases hpp : process_playlist env base_url (localFilename base_url "playlist.m3u8")
      with e | l
    · rw [hpp, except_bind_err] at h; exact Except.noConfusion h
    rw [hpp] at h
    simp only [except_bind_ok] at h
    injection h with h'
    subst h'
    exact ⟨rfl, fun w hw s hs => process_playlist_writes hpp w hw s hs⟩

/-- Witness for C7: the amended description of the write log at the
concrete master-playlist scenario. -/
theorem c7_amended_witness :
    ∃ master_content,
      env7.fetchText base7 = Except.ok master_content ∧
      ws7.head? = some ⟨localFilename base7 "playlist.m3u8", master_content,
        some master_content⟩ ∧
      ∀ w ∈ ws7.tail, ∀ s, w.src = some s →
        w.data = String.mk (Playlist.rewriteChars s.toList) :=
  c7_amended env7 base7 ws7 (by rfl)

/-! ## C8: all-or-nothing segment batch -/

theorem exceptMapM_forall {α β : Type} (f : α → Except String β) :
    ∀ (xs : List α) (ys : List β), exceptMapM f xs = Except.ok ys →
      ∀ x ∈ xs, ∃ y, f x = Except.ok y := by
  intro xs
  induction xs with
  | nil =>
    intro ys h x hx
    simp at hx
  | cons a t ih =>
    intro ys h x hx
    unfold exceptMapM at h
    rcases hfa : f a with e | b
    · rw [hfa, except_bind_err] at h; exact Except.noConfusion h
    rw [hfa] at h
    simp only [except_bind_ok] at h
    rcases hrest : exceptMapM f t with e | bs
    · rw [hrest, except_bind_err] at h; exact Except.noConfusion h
    rcases List.mem_cons.mp hx with rfl | hx'
    · exact ⟨b, hfa⟩
    · exact ih bs hrest x hx'

theorem exceptMapM_error {α β : Type} (f : α → Except String β) :
    ∀ (xs : List α), (∃ x ∈ xs, ∃ e, f x = Except.error e) →
      ∃ e, exceptMapM f xs = Except.error e := by
  intro xs
  induction xs with
  | nil =>
    intro h
    obtain ⟨x, hx, _⟩ := h
    simp at hx
  | cons a t ih =>
    intro h
    obtain ⟨x, hx, e, he⟩ := h
    rcases List.mem_cons.mp hx with rfl | hx'
    · exact ⟨e, by unfold exceptMapM; rw [he, except_bind_err]⟩
    · rcases hfa : f a with e' | b
      · exact ⟨e', by unfold exceptMapM; rw [hfa, except_bind_err]⟩
      · obtain ⟨e'', he''⟩ := ih ⟨x, hx', e, he⟩
        refine ⟨e'', ?_⟩
        unfold exceptMapM
        rw [hfa]
        simp only [except_bind_ok]
        rw [he'', except_bind_err]

/-- C8: processing a media playlist is all-or-nothing over its segment
batch.  If any one of the resolved segment downloads returns an error,
`process_playlist` returns an error rather than success, even when the
other downloads succeeded; and whenever it returns success, every segment
download and the playlist write succeeded. -/
theorem c8_all_or_nothing (env : FetchEnv) (u : Url) (fn : String)
    (content : String) (p : Playlist) (targets : List (Url × String))
    (hft : env.fetchText u = Except.ok content)
    (hp : Playlist.parse content u = Except.ok p)
    (hne : p.segments.isEmpty = false)
    (ht : segmentTargets p = Except.ok targets) :
    ((∃ t ∈ targets, ∃ e, download_segment env t.1 t.2 = Except.error e) →
      ∃ e, process_playlist env u fn = Except.error e) ∧
    (∀ l, process_playlist env u fn = Except.ok l →
      (∀ t ∈ targets, ∃ w, download_segment env t.1 t.2 = Except.ok w) ∧
      env.writeRes fn = Except.ok ()) := by
  constructor
  · intro hfail
    obtain ⟨e', he'⟩ :=
      exceptMapM_error (fun t => download_segment env t.1 t.2) targets hfail
    refine ⟨e', ?_⟩
    unfold process_playlist
    rw [hft]
    simp only [except_bind_ok]
    rw [hp]
    simp only [except_bind_ok]
    rw [if_pos (by rw [hne]; rfl)]
    rw [ht]
    simp only [except_bind_ok]
    rw [he', except_bind_err]
  · intro l h
    unfold process_playlist at h
    rw [hft] at h
    simp only [except_bind_ok] at h
    rw [hp] at h
    simp only [except_bind_ok] at h
    rw [if_pos (by rw [hne]; rfl)] at h
    rw [ht] at h
    simp only [except_bind_ok] at h
    rcases hd : exceptMapM (fun t => download_segment env t.1 t.2) targets with e | dls
    · rw [hd, except_bind_err] at h; exact Except.noConfusion h
    rw [hd] at h
    simp only [except_bind_ok] at h
    rcases hwr : env.writeRes fn with e | uu
    · rw [hwr, except_bind_err] at h; exact Except.noConfusion h
    cases uu
    exact ⟨fun t htm =>
      exceptMapM_forall (fun t => download_segment env t.1 t.2) targets dls hd t htm, rfl⟩

/-- The C8 scenario: a media playlist with two absolute segment
references whose second segment fetch fails. -/
def u8 : Url := ⟨"http".toList, some "h".toList, none, "/a/low.m3u8".toList⟩

def media8 : String := "#EXTM3U\nhttp://h/a/s1.ts\nhttp://h/a/s2.ts\n"

def s1Url8 : Url := ⟨"http".toList, some "h".toList, none, "/a/s1.ts".toList⟩

def s2Url8 : Url := ⟨"http".toList, some "h".toList, none, "/a/s2.ts".toList⟩

def env8 : FetchEnv :=
  ⟨fun u => if u = u8 then Except.ok media8 else Except.error "404",
   fun u => if u = s1Url8 then Except.ok "S1" else Except.error "boom",
   fun _ => Except.ok ()⟩

def p8 : Playlist := ⟨media8, ["http://h/a/s1.ts", "http://h/a/s2.ts"], u8⟩

def targets8 : List (Url × String) := [(s1Url8, "s1.ts"), (s2Url8, "s2.ts")]

/-- Witness for C8: the all-or-nothing property at the concrete
two-segment scenario. -/
theorem c8_all_or_nothing_witness :
    ((∃ t ∈ targets8, ∃ e, download_segment env8 t.1 t.2 = Except.error e) →
      ∃ e, process_playlist env8 u8 "low.m3u8" = Except.error e) ∧
    (∀ l, process_playlist env8 u8 "low.m3u8" = Except.ok l →
      (∀ t ∈ targets8, ∃ w, download_segment env8 t.1 t.2 = Except.ok w) ∧
      env8.writeRes "low.m3u8" = Except.ok ()) :=
  c8_all_or_nothing env8 u8 "low.m3u8" media8 p8 targets8
    (by rfl) (by rfl) (by rfl) (by rfl)

end Hlscp
